import Mathlib

/-!
# Verification of the crossword CSP solver (`crossword/generate.py`)

Shallow embedding of `CrosswordCreator`: the domain store is an
insertion-ordered association list (mirroring a Python `dict`), words are
lists of characters, and the puzzle model (`crossword.py`, an external
collaborator of the core) is modelled from the spec as an abstract
structure of slot variables, an overlap relation and a word list.
-/

/-- A slot variable: start row `i`, start column `j`, direction, length.
Equality is decidable componentwise, as in the source class `Variable`. -/
structure Var where
  i : Nat
  j : Nat
  down : Bool
  length : Nat
deriving DecidableEq

/-- A candidate word, as its list of characters. -/
abbrev Word := List Char

/-- The domain store: insertion-ordered map from variables to word lists,
mirroring the Python `dict` `self.domains` (keys unique in actual use). -/
abbrev Domains := List (Var × List Word)

/-- A partial assignment: insertion-ordered map from variables to words,
mirroring the Python `dict` passed to `backtrack`. -/
abbrev Assignment := List (Var × Word)

/-- Keys of the domain store, in insertion order (`for var in self.domains`). -/
def dkeys (doms : Domains) : List Var := doms.map Prod.fst

/-- Value lookup in the domain store (`self.domains[var]`). -/
def dget (doms : Domains) (v : Var) : List Word :=
  match doms with
  | [] => []
  | (u, ws) :: rest => if u = v then ws else dget rest v

/-- Key membership in the domain store. -/
def dmem (doms : Domains) (v : Var) : Bool :=
  match doms with
  | [] => false
  | (u, _) :: rest => decide (u = v) || dmem rest v

/-- Replace the value stored for `v` (in place, keeping its position),
mirroring mutation of the set object held at `self.domains[v]`. -/
def dset (doms : Domains) (v : Var) (ws : List Word) : Domains :=
  match doms with
  | [] => []
  | (u, ws0) :: rest => if u = v then (v, ws) :: rest else (u, ws0) :: dset rest v ws

/-- Total number of words stored in the domain store (termination measure). -/
def valsSize (doms : Domains) : Nat := (doms.map (fun p => p.2.length)).sum

/-- Assignment lookup (`assignment[var]` / `var in assignment`). -/
def aget (a : Assignment) (v : Var) : Option Word :=
  match a with
  | [] => none
  | (u, w) :: rest => if u = v then some w else aget rest v

/-- Item assignment `assignment[var] = val`: overwrite in place if present, else append,
mirroring Python `dict` item assignment. -/
def ainsert (a : Assignment) (v : Var) (w : Word) : Assignment :=
  match a with
  | [] => [(v, w)]
  | (u, w0) :: rest => if u = v then (v, w) :: rest else (u, w0) :: ainsert rest v w

/-- Removal `assignment.pop(var)`: remove the entry for `v` (keys are unique). -/
def aerase (a : Assignment) (v : Var) : Assignment :=
  match a with
  | [] => []
  | (u, w) :: rest => if u = v then rest else (u, w) :: aerase rest v

/-- Modelled from the spec: the Puzzle Model (`crossword.py` is not part of
the core source). It exposes the slot variables, the dictionary of words,
and the Overlap Relation, queryable by ordered variable pair (§3, §6). -/
structure Crossword where
  vars : List Var
  words : List Word
  overlaps : Var → Var → Option (Nat × Nat)

/-- Modelled from the spec: the Neighbor Set of `v` is the set of other
variables with a non-null overlap with it (§3). -/
def neighbors (cw : Crossword) (v : Var) : List Var :=
  cw.vars.filter (fun u => decide (u ≠ v) && (cw.overlaps v u).isSome)

/-- Well-formedness of the Puzzle Model, from §3: the overlap relation is
symmetric information about pairs of distinct variables, its indices are
letter positions inside each variable's word, and the variable list has no
duplicates (it enumerates a set). -/
structure Crossword.WF (cw : Crossword) : Prop where
  nodup : cw.vars.Nodup
  symm : ∀ x y i j, cw.overlaps x y = some (i, j) → cw.overlaps y x = some (j, i)
  irrefl : ∀ x, cw.overlaps x x = none
  boundFst : ∀ x y i j, cw.overlaps x y = some (i, j) → i < x.length
  boundSnd : ∀ x y i j, cw.overlaps x y = some (i, j) → j < y.length

/-- Constructor `__init__`: each variable's domain starts as a copy of the dictionary. -/
def initDomains (cw : Crossword) : Domains := cw.vars.map (fun v => (v, cw.words))

/-- Source method `enforce_node_consistency`: for each variable, remove the words whose
length differs from the variable's length (iterating over a snapshot). -/
def enforce_node_consistency (doms : Domains) : Domains :=
  (dkeys doms).foldl
    (fun d v => dset d v ((dget d v).filter (fun w => w.length == v.length))) doms

/-- Source method `revise(x, y)`: if the pair has no overlap, a no-op returning `false`;
otherwise keep exactly the words of `x`'s domain supported by some word of
`y`'s domain at the overlap positions, and report whether any word was
removed.  The support scan reads `y`'s domain as it stands at entry, which
matches the source for the `x ≠ y` arcs it is invoked on. -/
def revise (cw : Crossword) (doms : Domains) (x y : Var) : Domains × Bool :=
  match cw.overlaps x y with
  | none => (doms, false)
  | some (i, j) =>
    let kept := (dget doms x).filter
      (fun w => (dget doms y).any (fun u => w.getD i ' ' == u.getD j ' '))
    (dset doms x kept, decide (kept ≠ dget doms x))

/-- The default worklist: all ordered pairs of distinct variables, in the
iteration order of the domain store. -/
def allArcs (doms : Domains) : List (Var × Var) :=
  (dkeys doms).flatMap
    (fun v1 => ((dkeys doms).filter (fun v2 => decide (v2 ≠ v1))).map (fun v2 => (v1, v2)))

/-- Source method `ac3(arcs)`, the worklist loop: dequeue `(x, y)`, revise; on a revision that
empties `x`'s domain return failure; on any revision re-enqueue `(z, x)`
for every neighbor `z` of `x` other than `y`.  Terminates because every
revision that reports `true` strictly shrinks the revised domain. -/
def ac3Aux (cw : Crossword) (queue : List (Var × Var)) (doms : Domains) : Domains × Bool :=
  match queue with
  | [] => (doms, true)
  | (x, y) :: rest =>
    if h : ((revise cw doms x y).2 : Bool) then
      if dget (revise cw doms x y).1 x = [] then ((revise cw doms x y).1, false)
      else ac3Aux cw
        (rest ++ (((neighbors cw x).filter (fun z => decide (z ≠ y))).map (fun z => (z, x))))
        (revise cw doms x y).1
    else ac3Aux cw rest doms
termination_by (valsSize doms, queue.length)
decreasing_by
  · apply Prod.Lex.left
    have hnm : ∀ (d : Domains) (v : Var), dmem d v = false → dget d v = [] := by
      intro d v hm
      induction d with
      | nil => rfl
      | cons p rest ih =>
        simp only [dmem, Bool.or_eq_false_iff, decide_eq_false_iff_not] at hm
        simpa [dget, hm.1] using ih hm.2
    have hsize : ∀ (d : Domains) (v : Var) (ws : List Word), dmem d v = true →
        valsSize (dset d v ws) + (dget d v).length = valsSize d + ws.length := by
      intro d v ws hm
      induction d with
      | nil => simp [dmem] at hm
      | cons p rest ih =>
        obtain ⟨u, ws0⟩ := p
        by_cases hu : u = v
        · subst hu
          simp [dset, dget, valsSize]
          omega
        · simp only [dmem, decide_eq_true_eq, Bool.or_eq_true] at hm
          rcases hm with hm | hm
          · exact absurd hm hu
          · simp only [dset, if_neg hu, dget, if_neg hu, valsSize, List.map_cons,
              List.sum_cons]
            have := ih hm
            simp only [valsSize] at this
            omega
    revert h
    unfold revise
    cases hov : cw.overlaps x y with
    | none => simp
    | some ij =>
      obtain ⟨i, j⟩ := ij
      simp only [decide_eq_true_eq]
      intro hne
      by_cases hm : dmem doms x
      · have hk := hsize doms x ((dget doms x).filter
          (fun w => (dget doms y).any (fun u => w.getD i ' ' == u.getD j ' '))) hm
        have hsub := List.filter_sublist (l := dget doms x)
          (p := fun w => (dget doms y).any (fun u => w.getD i ' ' == u.getD j ' '))
        have hlt : ((dget doms x).filter
            (fun w => (dget doms y).any (fun u => w.getD i ' ' == u.getD j ' '))).length
            < (dget doms x).length := by
          rcases Nat.lt_or_ge ((dget doms x).filter
              (fun w => (dget doms y).any (fun u => w.getD i ' ' == u.getD j ' '))).length
              (dget doms x).length with hlt | hge
          · exact hlt
          · exact absurd (hsub.eq_of_length (Nat.le_antisymm hsub.length_le hge)) hne
        omega
      · have := hnm doms x (by simpa using hm)
        simp [this] at hne
  · apply Prod.Lex.right
    simp

/-- Source method `ac3()` with the default worklist of all arcs. -/
def ac3 (cw : Crossword) (doms : Domains) : Domains × Bool :=
  ac3Aux cw (allArcs doms) doms

/-- Source method `assignment_complete`: every variable of the domain store is assigned. -/
def assignment_complete (doms : Domains) (a : Assignment) : Bool :=
  doms.all (fun p => (aget a p.1).isSome)

/-- Body of `consistent`: walk the assignment entries, checking word length,
letter agreement with every assigned neighbor, and uniqueness against the
accumulated list of already-seen values. -/
def consistentAux (cw : Crossword) (a : Assignment) :
    List (Var × Word) → List Word → Bool
  | [], _ => true
  | (v, w) :: rest, seen =>
    if w.length ≠ v.length then false
    else if (neighbors cw v).any (fun y =>
        match aget a y, cw.overlaps v y with
        | some u, some (i, j) => decide (w.getD i ' ' ≠ u.getD j ' ')
        | _, _ => false) then false
    else if w ∈ seen then false
    else consistentAux cw a rest (seen ++ [w])

/-- Source method `consistent(assignment)`. -/
def consistent (cw : Crossword) (a : Assignment) : Bool :=
  consistentAux cw a a []

/-- Source method `order_domain_values`: pair each word of `var`'s domain with the number
of neighbors whose current domain contains it, stable-sort ascending by
that count, and return the words.  (The source's `if x in assignment`
guard tests a word against the assignment's `Variable` keys, so it never
fires; the parameter is kept for the signature.) -/
def order_domain_values (cw : Crossword) (doms : Domains) (var : Var)
    (_assignment : Assignment) : List Word :=
  let Dvalues := (dget doms var).map
    (fun x => (x, ((neighbors cw var).filter (fun nb => decide (x ∈ dget doms nb))).length))
  (Dvalues.mergeSort (fun p q => decide (p.2 ≤ q.2))).map Prod.fst

/-- The sort key of `select_unassigned_variable`: ascending lexicographic
comparison of (domain size, neighbor count), as in `key=lambda x: (x[1], x[2])`. -/
def mrvLe (p q : Var × Nat × Nat) : Bool :=
  decide (p.2.1 < q.2.1 ∨ (p.2.1 = q.2.1 ∧ p.2.2 ≤ q.2.2))

/-- Source method `select_unassigned_variable`: collect `(var, domain size, degree)` for
each unassigned variable, stable-sort ascending by (size, degree), take the
first.  Returns `none` when every variable is assigned (the source would
raise an `IndexError` on `s[0]` there, an unreachable state). -/
def select_unassigned_variable (cw : Crossword) (doms : Domains)
    (assignment : Assignment) : Option Var :=
  let mrv := ((dkeys doms).filter (fun v => (aget assignment v).isNone)).map
    (fun v => (v, (dget doms v).length, (neighbors cw v).length))
  ((mrv.mergeSort mrvLe).head?).map Prod.fst

/-- Python truthiness of `backtrack`'s result: `None` and the empty dict
are both falsy (`if result:`). -/
def truthy : Option Assignment → Bool
  | none => false
  | some a => !a.isEmpty

mutual
/-- Source method `backtrack(assignment)`, with the mutable solver state (domain store and
assignment dict) threaded explicitly; returns the result together with the
state as left by the call. -/
def backtrackMut (cw : Crossword) : Nat → Domains × Assignment →
    Option Assignment × (Domains × Assignment)
  | 0, st => (none, st)
  | fuel + 1, st =>
    if assignment_complete st.1 st.2 then (some st.2, st)
    else
      match select_unassigned_variable cw st.1 st.2 with
      | none => (none, st)
      | some var => tryVals cw fuel var (order_domain_values cw st.1 var st.2) st
termination_by fuel st => (fuel, 0)
decreasing_by
  exact Prod.Lex.left _ _ (Nat.lt_succ_self fuel)

/-- The `for val in self.order_domain_values(...)` loop of `backtrack`:
tentatively assign, check consistency, recurse, and pop the tentative
assignment when the branch fails. -/
def tryVals (cw : Crossword) : Nat → Var → List Word → Domains × Assignment →
    Option Assignment × (Domains × Assignment)
  | _, _, [], st => (none, st)
  | fuel, var, val :: vals, st =>
    let st1 := (st.1, ainsert st.2 var val)
    if consistent cw st1.2 then
      let r := backtrackMut cw fuel st1
      if truthy r.1 then r
      else tryVals cw fuel var vals (r.2.1, aerase r.2.2 var)
    else tryVals cw fuel var vals (st1.1, aerase st1.2 var)
termination_by fuel var vals st => (fuel, vals.length + 1)
decreasing_by
  · exact Prod.Lex.right _ (Nat.zero_lt_succ _)
  · exact Prod.Lex.right _ (Nat.lt_succ_self _)
  · exact Prod.Lex.right _ (Nat.lt_succ_self _)
end

/-- Enough fuel for the search: the recursion depth of `backtrack` is
bounded by the number of variables still unassigned, plus one. -/
def searchFuel (cw : Crossword) : Nat := cw.vars.length + 1

/-- Wrapper for `backtrack` as invoked on the solver state. -/
def backtrack (cw : Crossword) (doms : Domains) (a : Assignment) :
    Option Assignment × (Domains × Assignment) :=
  backtrackMut cw (searchFuel cw) (doms, a)

/-- Source method `solve()`: node consistency, then `ac3()` (whose Boolean result the
source discards), then backtracking search from the empty assignment. -/
def solve (cw : Crossword) : Option Assignment :=
  let d1 := enforce_node_consistency (initDomains cw)
  let d2 := (ac3 cw d1).1
  (backtrack cw d2 []).1

/-- Copy of `solve()` instrumented with a flag recording whether the backtracking
search was invoked: the source calls `self.backtrack(dict())` on every
path, unconditionally on `ac3`'s result. -/
def solveSearchInvoked (cw : Crossword) : Option Assignment × Bool :=
  let d1 := enforce_node_consistency (initDomains cw)
  let d2 := (ac3 cw d1).1
  ((backtrack cw d2 []).1, true)

/-- Spec §3: a complete assignment gives a word to every slot variable. -/
def CompleteAssignment (cw : Crossword) (a : Assignment) : Prop :=
  ∀ v ∈ cw.vars, ∃ w, aget a v = some w

/-- Spec §3 (a): every assigned word's length matches its variable's length. -/
def LengthOK (a : Assignment) : Prop := ∀ p ∈ a, p.2.length = p.1.length

/-- Spec §3 (b): every pair of assigned variables agrees at its overlap. -/
def OverlapsOK (cw : Crossword) (a : Assignment) : Prop :=
  ∀ p ∈ a, ∀ q ∈ a, ∀ i j, cw.overlaps p.1 q.1 = some (i, j) →
    p.2.getD i ' ' = q.2.getD j ' '

/-- Spec §3 (c): no word is reused across slots. -/
def DistinctWords (a : Assignment) : Prop :=
  ∀ p ∈ a, ∀ q ∈ a, p.1 ≠ q.1 → p.2 ≠ q.2

/-- Arc consistency of the arc `(x, y)`: every word of `x`'s domain has a
supporting word in `y`'s domain at the overlap positions (§8). -/
def ArcOK (cw : Crossword) (doms : Domains) (x y : Var) : Prop :=
  ∀ i j, cw.overlaps x y = some (i, j) →
    ∀ w ∈ dget doms x, ∃ u ∈ dget doms y, w.getD i ' ' = u.getD j ' '

/-- Arc consistency of every pair of puzzle variables. -/
def AllArcsOK (cw : Crossword) (doms : Domains) : Prop :=
  ∀ x ∈ cw.vars, ∀ y ∈ cw.vars, ArcOK cw doms x y

/-- The §3 domain invariant: every stored word has its variable's length. -/
def LenInv (doms : Domains) : Prop :=
  ∀ v : Var, ∀ w ∈ dget doms v, w.length = v.length

/-- A total satisfying assignment drawing words from the dictionary: for
each puzzle variable a word of the dictionary of matching length, agreeing
with every other variable at overlaps, and distinct from every other
variable's word.  (Stated with a `match`, so it is decidable for concrete
puzzles.) -/
def SolutionOK (cw : Crossword) (s : Var → Word) : Prop :=
  ∀ v ∈ cw.vars, s v ∈ cw.words ∧ (s v).length = v.length ∧
    ∀ u ∈ cw.vars,
      (∀ p ∈ (cw.overlaps v u).toList, (s v).getD p.1 ' ' = (s u).getD p.2 ' ') ∧
      (v ≠ u → s v ≠ s u)

/-- Overlap relation backed by a finite entry list, for concrete puzzles. -/
def lookupOv (L : List (Var × Var × Nat × Nat)) (x y : Var) : Option (Nat × Nat) :=
  (L.find? (fun e => decide (e.1 = x) && decide (e.2.1 = y))).map (fun e => e.2.2)

/-- A concrete puzzle from a variable list, a dictionary and overlap entries. -/
def mkCrossword (vs : List Var) (ws : List Word)
    (L : List (Var × Var × Nat × Nat)) : Crossword :=
  ⟨vs, ws, lookupOv L⟩

/-- Decidable well-formedness of an overlap entry list: no self-overlaps,
indices inside the word lengths, closure under swapping the pair, and at
most one entry per ordered pair. -/
def OvListOK (L : List (Var × Var × Nat × Nat)) : Prop :=
  (∀ e ∈ L, e.1 ≠ e.2.1 ∧ e.2.2.1 < e.1.length ∧ e.2.2.2 < e.2.1.length ∧
    (e.2.1, e.1, e.2.2.2, e.2.2.1) ∈ L) ∧
  (L.map (fun e => (e.1, e.2.1))).Nodup

/-- Across slot of length 3 at the origin (scenario 3 of §8). -/
def vA : Var := ⟨0, 0, false, 3⟩

/-- Down slot of length 3 crossing `vA` at its middle letter. -/
def vB : Var := ⟨0, 1, true, 3⟩

/-- Scenario 3 of §8: `vA` and `vB` overlap at positions (1, 0), dictionary
{bee, ear, eat}. -/
def exA : Crossword :=
  mkCrossword [vA, vB]
    [['b','e','e'], ['e','a','r'], ['e','a','t']]
    [(vA, vB, 1, 0), (vB, vA, 0, 1)]

/-- A satisfying assignment for `exA`. -/
def solA : Var → Word := fun v => if v = vB then ['e','a','r'] else ['b','e','e']

/-- Across slot of length 4 (scenario 2 of §8). -/
def vR : Var := ⟨0, 0, false, 4⟩

/-- Down slot of length 3 crossing `vR` (scenario 2 of §8). -/
def vN : Var := ⟨0, 2, true, 3⟩

/-- Scenario 2 of §8: `rain` against `not`/`now` with overlap (2, 0); arc
consistency empties `vR`'s domain. -/
def cwFail : Crossword :=
  mkCrossword [vR, vN]
    [['r','a','i','n'], ['n','o','t'], ['n','o','w']]
    [(vR, vN, 2, 0), (vN, vR, 0, 2)]

/-- A puzzle with no slot variables at all. -/
def cwEmpty : Crossword := mkCrossword [] [] []

/-- Isolated slot with no neighbors. -/
def vX : Var := ⟨0, 0, false, 3⟩

/-- Slot tied with `vX` on domain size but with one neighbor. -/
def vY : Var := ⟨5, 0, false, 3⟩

/-- Neighbor of `vY`. -/
def vZ : Var := ⟨5, 0, true, 3⟩

/-- Puzzle used to exercise the variable-selection heuristic: `vX` has
degree 0, `vY` degree 1, `vZ` degree 1. -/
def cwDeg : Crossword :=
  mkCrossword [vX, vY, vZ] []
    [(vY, vZ, 0, 0), (vZ, vY, 0, 0)]

/-- Domain store for `cwDeg`: `vX` and `vY` are tied at one candidate each,
`vZ` has two. -/
def domsDeg : Domains :=
  [(vX, [['a','b','c']]), (vY, [['d','e','f']]),
   (vZ, [['g','h','i'], ['j','k','l']])]

/-- Keys of an assignment, in insertion order. -/
def akeys (a : Assignment) : List Var := a.map Prod.fst

/-- A Python `dict` invariant: assignment keys are pairwise distinct. -/
def NodupKeys (a : Assignment) : Prop := (akeys a).Nodup

/-- Number of puzzle variables not yet assigned (search-depth measure). -/
def uCount (cw : Crossword) (a : Assignment) : Nat :=
  (cw.vars.filter (fun v => (aget a v).isNone)).length

/-!
The worklist loop and the search are compiled by well-founded recursion;
expose their unfoldings to kernel reduction so that concrete puzzles can be
evaluated by `decide`.
-/

unseal List.mergeSort List.merge ac3Aux backtrackMut tryVals

/-! ## Domain store lemmas -/

theorem dget_of_dmem_false (d : Domains) (v : Var) (h : dmem d v = false) :
    dget d v = [] := by
  induction d with
  | nil => rfl
  | cons p rest ih =>
    simp only [dmem, Bool.or_eq_false_iff, decide_eq_false_iff_not] at h
    simpa [dget, h.1] using ih h.2

theorem dmem_iff_mem_dkeys (d : Domains) (v : Var) :
    dmem d v = true ↔ v ∈ dkeys d := by
  induction d with
  | nil => simp [dmem, dkeys]
  | cons p rest ih =>
    simp only [dmem, Bool.or_eq_true, decide_eq_true_eq, ih, dkeys, List.map_cons,
      List.mem_cons]
    constructor
    · rintro (h | h)
      · exact Or.inl h.symm
      · exact Or.inr h
    · rintro (h | h)
      · exact Or.inl h.symm
      · exact Or.inr h

theorem dkeys_dset (d : Domains) (v : Var) (ws : List Word) :
    dkeys (dset d v ws) = dkeys d := by
  induction d with
  | nil => rfl
  | cons p rest ih =>
    obtain ⟨u, ws0⟩ := p
    by_cases hu : u = v
    · subst hu; simp [dset, dkeys]
    · simp [dset, dkeys, hu] at ih ⊢
      exact ih

theorem dget_dset_self (d : Domains) (v : Var) (ws : List Word) :
    dget (dset d v ws) v = if dmem d v then ws else dget d v := by
  induction d with
  | nil => simp [dset, dget, dmem]
  | cons p rest ih =>
    obtain ⟨u, ws0⟩ := p
    by_cases hu : u = v
    · subst hu; simp [dset, dget, dmem]
    · simp [dset, dget, dmem, hu, ih]

theorem dget_dset_ne (d : Domains) (v u : Var) (ws : List Word) (h : u ≠ v) :
    dget (dset d v ws) u = dget d u := by
  induction d with
  | nil => rfl
  | cons p rest ih =>
    obtain ⟨u0, ws0⟩ := p
    by_cases hu : u0 = v
    · subst hu
      simp only [dset, if_pos rfl, dget]
      rw [if_neg (fun hvu => h hvu.symm), if_neg]
      intro hc; exact h (hc ▸ rfl)
    · simp only [dset, if_neg hu, dget]
      by_cases h2 : u0 = u
      · simp [h2]
      · simp [h2, ih]

theorem dget_dset_filter (d : Domains) (v : Var) (p : Word → Bool) :
    dget (dset d v ((dget d v).filter p)) v = (dget d v).filter p := by
  rw [dget_dset_self]
  by_cases hm : dmem d v
  · simp [hm]
  · have h0 := dget_of_dmem_false d v (by simpa using hm)
    simp [hm, h0]

theorem dmem_dset (d : Domains) (v u : Var) (ws : List Word) :
    dmem (dset d v ws) u = dmem d u := by
  induction d with
  | nil => rfl
  | cons p rest ih =>
    obtain ⟨u0, ws0⟩ := p
    by_cases hu : u0 = v
    · subst hu; simp [dset, dmem]
    · simp [dset, dmem, hu, ih]

/-! ## Assignment lemmas -/

theorem aget_ainsert_self (a : Assignment) (v : Var) (w : Word) :
    aget (ainsert a v w) v = some w := by
  induction a with
  | nil => simp [ainsert, aget]
  | cons p rest ih =>
    obtain ⟨u, w0⟩ := p
    by_cases hu : u = v
    · subst hu; simp [ainsert, aget]
    · simp [ainsert, aget, hu, ih]

theorem aget_ainsert_ne (a : Assignment) (v u : Var) (w : Word) (h : u ≠ v) :
    aget (ainsert a v w) u = aget a u := by
  induction a with
  | nil => simp [ainsert, aget, Ne.symm h]
  | cons p rest ih =>
    obtain ⟨u0, w0⟩ := p
    by_cases hu : u0 = v
    · subst hu
      simp only [ainsert, if_pos rfl, aget]
      rw [if_neg (fun hvu => h hvu.symm), if_neg]
      intro hc; exact h (hc ▸ rfl)
    · simp only [ainsert, if_neg hu, aget]
      by_cases h2 : u0 = u
      · simp [h2]
      · simp [h2, ih]

theorem aerase_ainsert (a : Assignment) (v : Var) (w : Word)
    (h : aget a v = none) : aerase (ainsert a v w) v = a := by
  induction a with
  | nil => simp [ainsert, aerase]
  | cons p rest ih =>
    obtain ⟨u, w0⟩ := p
    by_cases hu : u = v
    · subst hu; simp [aget] at h
    · simp only [aget, if_neg hu] at h
      simp [ainsert, aerase, hu, ih h]

/-! ## Node consistency lemmas -/

theorem dget_foldl_node (K : List Var) (d : Domains) (v : Var) :
    dget (K.foldl
      (fun d v => dset d v ((dget d v).filter (fun w => w.length == v.length))) d) v
      = if v ∈ K then (dget d v).filter (fun w => w.length == v.length)
        else dget d v := by
  induction K generalizing d with
  | nil => simp
  | cons k K ih =>
    simp only [List.foldl_cons]
    rw [ih]
    by_cases hv : v = k
    · subst hv
      rw [dget_dset_filter]
      by_cases hm : v ∈ K
      · simp [hm, List.filter_filter]
      · simp [hm]
    · rw [dget_dset_ne _ _ _ _ hv]
      simp [List.mem_cons, hv]

theorem dmem_false_of_not_mem (d : Domains) (v : Var) (h : v ∉ dkeys d) :
    dmem d v = false := by
  cases hm : dmem d v
  · rfl
  · exact absurd ((dmem_iff_mem_dkeys d v).mp hm) h

theorem dget_enforce (doms : Domains) (v : Var) :
    dget (enforce_node_consistency doms) v
      = (dget doms v).filter (fun w => w.length == v.length) := by
  unfold enforce_node_consistency
  rw [dget_foldl_node]
  by_cases hm : v ∈ dkeys doms
  · simp [hm]
  · have h0 : dget doms v = [] :=
      dget_of_dmem_false doms v (dmem_false_of_not_mem doms v hm)
    simp [hm, h0]

theorem dkeys_foldl_node (K : List Var) (d : Domains) :
    dkeys (K.foldl
      (fun d v => dset d v ((dget d v).filter (fun w => w.length == v.length))) d)
      = dkeys d := by
  induction K generalizing d with
  | nil => rfl
  | cons k K ih => simp only [List.foldl_cons]; rw [ih, dkeys_dset]

theorem dkeys_enforce (doms : Domains) :
    dkeys (enforce_node_consistency doms) = dkeys doms :=
  dkeys_foldl_node (dkeys doms) doms

theorem dget_map_const (vs : List Var) (ws : List Word) (v : Var) (h : v ∈ vs) :
    dget (vs.map (fun u => (u, ws))) v = ws := by
  induction vs with
  | nil => cases h
  | cons u vs ih =>
    by_cases hu : u = v
    · subst hu; simp [dget]
    · rcases List.mem_cons.mp h with h1 | h1
      · exact absurd h1.symm hu
      · simp [dget, hu, ih h1]

theorem dkeys_initDomains (cw : Crossword) : dkeys (initDomains cw) = cw.vars := by
  simp only [dkeys, initDomains, List.map_map]
  exact List.map_id cw.vars

theorem dget_initDomains (cw : Crossword) (v : Var) (h : v ∈ cw.vars) :
    dget (initDomains cw) v = cw.words :=
  dget_map_const cw.vars cw.words v h

/-! ## Revise lemmas -/

theorem dset_dget (d : Domains) (v : Var) : dset d v (dget d v) = d := by
  induction d with
  | nil => rfl
  | cons p rest ih =>
    obtain ⟨u, ws0⟩ := p
    by_cases hu : u = v
    · subst hu; simp [dset, dget]
    · simp [dset, dget, hu, ih]

theorem revise_none (cw : Crossword) (doms : Domains) (x y : Var)
    (h : cw.overlaps x y = none) : revise cw doms x y = (doms, false) := by
  simp [revise, h]

theorem revise_fst_x (cw : Crossword) (doms : Domains) (x y : Var) (i j : Nat)
    (h : cw.overlaps x y = some (i, j)) :
    dget (revise cw doms x y).1 x = (dget doms x).filter
      (fun w => (dget doms y).any (fun u => w.getD i ' ' == u.getD j ' ')) := by
  simp only [revise, h]
  exact dget_dset_filter doms x _

theorem revise_fst_ne (cw : Crossword) (doms : Domains) (x y v : Var)
    (h : v ≠ x) : dget (revise cw doms x y).1 v = dget doms v := by
  rcases hov : cw.overlaps x y with _ | ij
  · simp [revise, hov]
  · obtain ⟨i, j⟩ := ij
    simp only [revise, hov]
    exact dget_dset_ne doms x v _ h

theorem revise_flag (cw : Crossword) (doms : Domains) (x y : Var) (i j : Nat)
    (h : cw.overlaps x y = some (i, j)) :
    (revise cw doms x y).2 = decide ((dget doms x).filter
      (fun w => (dget doms y).any (fun u => w.getD i ' ' == u.getD j ' '))
      ≠ dget doms x) := by
  simp only [revise, h]

theorem revise_false_eq (cw : Crossword) (doms : Domains) (x y : Var)
    (h : (revise cw doms x y).2 = false) : (revise cw doms x y).1 = doms := by
  rcases hov : cw.overlaps x y with _ | ij
  · simp [revise, hov]
  · obtain ⟨i, j⟩ := ij
    rw [revise_flag cw doms x y i j hov] at h
    simp only [decide_eq_false_iff_not, not_not] at h
    simp only [revise, hov]
    rw [h, dset_dget]

theorem dkeys_revise (cw : Crossword) (doms : Domains) (x y : Var) :
    dkeys (revise cw doms x y).1 = dkeys doms := by
  rcases hov : cw.overlaps x y with _ | ij
  · simp [revise, hov]
  · obtain ⟨i, j⟩ := ij
    simp only [revise, hov]
    exact dkeys_dset doms x _

theorem revise_subset (cw : Crossword) (doms : Domains) (x y v : Var) (w : Word)
    (h : w ∈ dget (revise cw doms x y).1 v) : w ∈ dget doms v := by
  by_cases hv : v = x
  · subst hv
    rcases hov : cw.overlaps v y with _ | ij
    · rwa [revise_none cw doms v y hov] at h
    · obtain ⟨i, j⟩ := ij
      rw [revise_fst_x cw doms v y i j hov] at h
      exact List.mem_of_mem_filter h
  · rwa [revise_fst_ne cw doms x y v hv] at h

/-! ## AC-3 lemmas -/

theorem ac3Aux_dkeys (cw : Crossword) (queue : List (Var × Var)) (doms : Domains) :
    dkeys (ac3Aux cw queue doms).1 = dkeys doms := by
  induction queue, doms using ac3Aux.induct cw with
  | case1 doms => simp [ac3Aux]
  | case2 doms x y rest h1 h2 =>
    simp only [ac3Aux, h1, dite_true, if_pos h2]
    exact dkeys_revise cw doms x y
  | case3 doms x y rest h1 h2 ih =>
    simp only [ac3Aux, h1, dite_true, if_neg h2]
    rw [ih, dkeys_revise]
  | case4 doms x y rest h1 ih =>
    simp only [ac3Aux, h1, dite_false]
    exact ih

theorem ac3Aux_subset (cw : Crossword) (queue : List (Var × Var)) (doms : Domains)
    (v : Var) (w : Word) (h : w ∈ dget (ac3Aux cw queue doms).1 v) :
    w ∈ dget doms v := by
  induction queue, doms using ac3Aux.induct cw with
  | case1 doms => simpa [ac3Aux] using h
  | case2 doms x y rest h1 h2 =>
    simp only [ac3Aux, h1, dite_true, if_pos h2] at h
    exact revise_subset cw doms x y v w h
  | case3 doms x y rest h1 h2 ih =>
    simp only [ac3Aux, h1, dite_true, if_neg h2] at h
    exact revise_subset cw doms x y v w (ih h)
  | case4 doms x y rest h1 ih =>
    simp only [ac3Aux, h1, dite_false] at h
    exact ih h

theorem revise_true_overlap (cw : Crossword) (doms : Domains) (x y : Var)
    (h : (revise cw doms x y).2 = true) : ∃ i j, cw.overlaps x y = some (i, j) := by
  rcases hov : cw.overlaps x y with _ | ij
  · rw [revise_none cw doms x y hov] at h
    cases h
  · obtain ⟨i, j⟩ := ij
    exact ⟨i, j, rfl⟩

theorem arcok_of_revise_false (cw : Crossword) (doms : Domains) (x y : Var)
    (h : (revise cw doms x y).2 = false) : ArcOK cw doms x y := by
  intro i j hov w hw
  rw [revise_flag cw doms x y i j hov] at h
  simp only [decide_eq_false_iff_not, not_not] at h
  have hwf : w ∈ (dget doms x).filter
      (fun w => (dget doms y).any (fun u => w.getD i ' ' == u.getD j ' ')) := by
    rw [h]; exact hw
  have := (List.mem_filter.mp hwf).2
  rcases List.any_eq_true.mp this with ⟨u, hu, heq⟩
  exact ⟨u, hu, by simpa using heq⟩

theorem revise_false_of_arcok (cw : Crossword) (doms : Domains) (x y : Var)
    (h : ArcOK cw doms x y) : (revise cw doms x y).2 = false := by
  rcases hov : cw.overlaps x y with _ | ij
  · rw [revise_none cw doms x y hov]
  · obtain ⟨i, j⟩ := ij
    rw [revise_flag cw doms x y i j hov]
    simp only [decide_eq_false_iff_not, not_not]
    apply List.filter_eq_self.mpr
    intro w hw
    rcases h i j hov w hw with ⟨u, hu, heq⟩
    exact List.any_eq_true.mpr ⟨u, hu, by simpa using heq⟩

theorem revise_arcok_self (cw : Crossword) (doms : Domains) (x y : Var)
    (hxy : y ≠ x) : ArcOK cw (revise cw doms x y).1 x y := by
  intro i j hov w hw
  rw [revise_fst_x cw doms x y i j hov] at hw
  have := (List.mem_filter.mp hw).2
  rcases List.any_eq_true.mp this with ⟨u, hu, heq⟩
  refine ⟨u, ?_, by simpa using heq⟩
  rwa [revise_fst_ne cw doms x y y hxy]

theorem revise_reverse_arcok (cw : Crossword)
    (hsymm : ∀ x y i j, cw.overlaps x y = some (i, j) → cw.overlaps y x = some (j, i))
    (doms : Domains) (x y : Var) (hxy : y ≠ x)
    (h : ArcOK cw doms y x) : ArcOK cw (revise cw doms x y).1 y x := by
  intro j' i' hov w hw
  rw [revise_fst_ne cw doms x y y hxy] at hw
  rcases h j' i' hov w hw with ⟨u, hu, heq⟩
  have hxyov : cw.overlaps x y = some (i', j') := by
    have := hsymm y x j' i' hov
    exact this
  refine ⟨u, ?_, heq⟩
  rw [revise_fst_x cw doms x y i' j' hxyov]
  apply List.mem_filter.mpr
  refine ⟨hu, List.any_eq_true.mpr ⟨w, hw, ?_⟩⟩
  simp only [beq_iff_eq]
  exact heq.symm

theorem arcok_mono (cw : Crossword) (d d' : Domains) (a b : Var)
    (hsub : ∀ w ∈ dget d' a, w ∈ dget d a) (heq : dget d' b = dget d b)
    (h : ArcOK cw d a b) : ArcOK cw d' a b := by
  intro i j hov w hw
  rcases h i j hov w (hsub w hw) with ⟨u, hu, hagree⟩
  exact ⟨u, by rw [heq]; exact hu, hagree⟩

theorem mem_neighbors (cw : Crossword) (v u : Var) :
    u ∈ neighbors cw v ↔ u ∈ cw.vars ∧ u ≠ v ∧ (cw.overlaps v u).isSome := by
  unfold neighbors
  simp [List.mem_filter]

theorem ac3Aux_arcok (cw : Crossword)
    (hsymm : ∀ x y i j, cw.overlaps x y = some (i, j) → cw.overlaps y x = some (j, i))
    (queue : List (Var × Var)) (doms : Domains)
    (hq : ∀ p ∈ queue, p.1 ≠ p.2)
    (hinv : ∀ x ∈ cw.vars, ∀ y ∈ cw.vars, x ≠ y → cw.overlaps x y ≠ none →
      (x, y) ∈ queue ∨ ArcOK cw doms x y)
    (hflag : (ac3Aux cw queue doms).2 = true) :
    ∀ x ∈ cw.vars, ∀ y ∈ cw.vars, x ≠ y → ArcOK cw (ac3Aux cw queue doms).1 x y := by
  induction queue, doms using ac3Aux.induct cw with
  | case1 doms =>
    intro x hx y hy hxy
    simp only [ac3Aux]
    rcases hov : cw.overlaps x y with _ | ij
    · intro i j hov2 w hw
      rw [hov] at hov2
      cases hov2
    · rcases hinv x hx y hy hxy (by rw [hov]; exact fun hc => Option.noConfusion hc) with hin | hok
      · cases hin
      · exact hok
  | case2 doms x y rest h1 h2 =>
    rw [ac3Aux] at hflag
    simp only [h1, dite_true, if_pos h2] at hflag
    cases hflag
  | case3 doms x y rest h1 h2 ih =>
    have hxy : x ≠ y := hq (x, y) (List.mem_cons_self _ _)
    have hyx : y ≠ x := fun hc => hxy hc.symm
    have heq : ac3Aux cw ((x, y) :: rest) doms
        = ac3Aux cw
          (rest ++ (((neighbors cw x).filter (fun z => decide (z ≠ y))).map (fun z => (z, x))))
          (revise cw doms x y).1 := by
      rw [ac3Aux]
      simp only [h1, dite_true, if_neg h2]
    rw [heq] at hflag ⊢
    apply ih
    · intro p hp
      rcases List.mem_append.mp hp with hp | hp
      · exact hq p (List.mem_cons_of_mem _ hp)
      · rcases List.mem_map.mp hp with ⟨z, hz, hzp⟩
        have := (List.mem_filter.mp hz).1
        have hzx := ((mem_neighbors cw x z).mp this).2.1
        rw [← hzp]
        exact hzx
    · intro a ha b hb hab hov
      rcases hinv a ha b hb hab hov with hin | hok
      · rcases List.mem_cons.mp hin with hin | hin
        · -- the popped arc (x, y) itself: revised, so now arc-consistent
          have hax : a = x := congrArg Prod.fst hin
          have hby : b = y := congrArg Prod.snd hin
          subst hax; subst hby
          exact Or.inr (revise_arcok_self cw doms a b hyx)
        · exact Or.inl (List.mem_append_left _ hin)
      · by_cases hbx : b = x
        · subst hbx
          by_cases hay : a = y
          · subst hay
            exact Or.inr (revise_reverse_arcok cw hsymm doms b a hyx hok)
          · -- a is a neighbor of x other than y: its arc is re-enqueued
            left
            apply List.mem_append_right
            apply List.mem_map.mpr
            refine ⟨a, ?_, rfl⟩
            apply List.mem_filter.mpr
            refine ⟨(mem_neighbors cw b a).mpr ⟨ha, hab, ?_⟩, by simpa using hay⟩
            rcases hov2 : cw.overlaps a b with _ | ij
            · exact absurd hov2 hov
            · obtain ⟨i, j⟩ := ij
              rw [hsymm a b i j hov2]
              rfl
        · right
          apply arcok_mono cw doms (revise cw doms x y).1 a b
          · intro w hw
            exact revise_subset cw doms x y a w hw
          · exact revise_fst_ne cw doms x y b hbx
          · exact hok
    · exact hflag
  | case4 doms x y rest h1 ih =>
    have heq : ac3Aux cw ((x, y) :: rest) doms = ac3Aux cw rest doms := by
      rw [ac3Aux, dif_neg h1]
    rw [heq] at hflag ⊢
    apply ih
    · intro p hp
      exact hq p (List.mem_cons_of_mem _ hp)
    · intro a ha b hb hab hov
      rcases hinv a ha b hb hab hov with hin | hok
      · rcases List.mem_cons.mp hin with hin | hin
        · have hax : a = x := congrArg Prod.fst hin
          have hby : b = y := congrArg Prod.snd hin
          subst hax; subst hby
          have hfalse : (revise cw doms a b).2 = false := by
            cases hr : (revise cw doms a b).2
            · rfl
            · exact absurd hr h1
          exact Or.inr (arcok_of_revise_false cw doms a b hfalse)
        · exact Or.inl hin
      · exact Or.inr hok
    · exact hflag

theorem mem_allArcs (doms : Domains) (p : Var × Var) :
    p ∈ allArcs doms ↔ p.1 ∈ dkeys doms ∧ p.2 ∈ dkeys doms ∧ p.2 ≠ p.1 := by
  obtain ⟨a, b⟩ := p
  unfold allArcs
  simp only [List.mem_flatMap, List.mem_map, List.mem_filter, decide_eq_true_eq]
  constructor
  · rintro ⟨v1, hv1, v2, ⟨hv2, hne⟩, hpq⟩
    have ha : v1 = a := congrArg Prod.fst hpq
    have hb : v2 = b := congrArg Prod.snd hpq
    subst ha; subst hb
    exact ⟨hv1, hv2, hne⟩
  · rintro ⟨ha, hb, hne⟩
    exact ⟨a, ha, b, ⟨hb, hne⟩, rfl⟩

theorem ac3_arcok (cw : Crossword)
    (hsymm : ∀ x y i j, cw.overlaps x y = some (i, j) → cw.overlaps y x = some (j, i))
    (doms : Domains) (hkeys : dkeys doms = cw.vars)
    (hflag : (ac3 cw doms).2 = true) :
    ∀ x ∈ cw.vars, ∀ y ∈ cw.vars, x ≠ y → ArcOK cw (ac3 cw doms).1 x y := by
  apply ac3Aux_arcok cw hsymm (allArcs doms) doms
  · intro p hp
    exact (((mem_allArcs doms p).mp hp).2.2).symm
  · intro x hx y hy hxy hov
    left
    exact (mem_allArcs doms (x, y)).mpr
      ⟨by rw [hkeys]; exact hx, by rw [hkeys]; exact hy, fun hc => hxy hc.symm⟩
  · exact hflag

theorem ac3Aux_noop (cw : Crossword) (queue : List (Var × Var)) (doms : Domains)
    (hok : ∀ p ∈ queue, ArcOK cw doms p.1 p.2) :
    ac3Aux cw queue doms = (doms, true) := by
  induction queue with
  | nil => rw [ac3Aux]
  | cons p rest ih =>
    obtain ⟨x, y⟩ := p
    have hfalse : (revise cw doms x y).2 = false :=
      revise_false_of_arcok cw doms x y (hok (x, y) (List.mem_cons_self _ _))
    rw [ac3Aux, dif_neg (by rw [hfalse]; exact Bool.false_ne_true)]
    exact ih (fun q hq => hok q (List.mem_cons_of_mem _ hq))

theorem ac3Aux_false_empty (cw : Crossword) (queue : List (Var × Var)) (doms : Domains)
    (hq : ∀ p ∈ queue, p.1 ∈ dkeys doms)
    (hvars : ∀ v ∈ cw.vars, v ∈ dkeys doms)
    (hflag : (ac3Aux cw queue doms).2 = false) :
    ∃ v ∈ dkeys doms, dget (ac3Aux cw queue doms).1 v = [] := by
  induction queue, doms using ac3Aux.induct cw with
  | case1 doms =>
    rw [ac3Aux] at hflag
    cases hflag
  | case2 doms x y rest h1 h2 =>
    have heq : ac3Aux cw ((x, y) :: rest) doms = ((revise cw doms x y).1, false) := by
      rw [ac3Aux, dif_pos h1, if_pos h2]
    rw [heq]
    exact ⟨x, hq (x, y) (List.mem_cons_self _ _), h2⟩
  | case3 doms x y rest h1 h2 ih =>
    have heq : ac3Aux cw ((x, y) :: rest) doms
        = ac3Aux cw
          (rest ++ (((neighbors cw x).filter (fun z => decide (z ≠ y))).map (fun z => (z, x))))
          (revise cw doms x y).1 := by
      rw [ac3Aux, dif_pos h1, if_neg h2]
    rw [heq] at hflag ⊢
    have hkr := dkeys_revise cw doms x y
    have hq2 : ∀ p ∈ rest ++
        (((neighbors cw x).filter (fun z => decide (z ≠ y))).map (fun z => (z, x))),
        p.1 ∈ dkeys (revise cw doms x y).1 := by
      intro p hp
      rcases List.mem_append.mp hp with hp | hp
      · rw [hkr]
        exact hq p (List.mem_cons_of_mem _ hp)
      · rcases List.mem_map.mp hp with ⟨z, hz, hzp⟩
        have hzv := ((mem_neighbors cw x z).mp (List.mem_filter.mp hz).1).1
        rw [hkr, ← hzp]
        exact hvars z hzv
    have hv2 : ∀ v ∈ cw.vars, v ∈ dkeys (revise cw doms x y).1 := by
      intro v hv
      rw [hkr]
      exact hvars v hv
    rcases ih hq2 hv2 hflag with ⟨v, hv, hve⟩
    exact ⟨v, by rwa [hkr] at hv, hve⟩
  | case4 doms x y rest h1 ih =>
    have heq : ac3Aux cw ((x, y) :: rest) doms = ac3Aux cw rest doms := by
      rw [ac3Aux, dif_neg h1]
    rw [heq] at hflag ⊢
    exact ih (fun p hp => hq p (List.mem_cons_of_mem _ hp)) hvars hflag

theorem revise_solution (cw : Crossword) (s : Var → Word) (doms : Domains) (x y : Var)
    (hx : x ∈ cw.vars) (hy : y ∈ cw.vars)
    (hagree : ∀ i j, cw.overlaps x y = some (i, j) →
      (s x).getD i ' ' = (s y).getD j ' ')
    (hs : ∀ v ∈ cw.vars, s v ∈ dget doms v) :
    ∀ v ∈ cw.vars, s v ∈ dget (revise cw doms x y).1 v := by
  intro v hv
  by_cases hvx : v = x
  · subst hvx
    rcases hov : cw.overlaps v y with _ | ij
    · rw [revise_none cw doms v y hov]
      exact hs v hv
    · obtain ⟨i, j⟩ := ij
      rw [revise_fst_x cw doms v y i j hov]
      apply List.mem_filter.mpr
      refine ⟨hs v hv, List.any_eq_true.mpr ⟨s y, hs y hy, ?_⟩⟩
      simp only [beq_iff_eq]
      exact hagree i j hov
  · rw [revise_fst_ne cw doms x y v hvx]
    exact hs v hv

theorem ac3Aux_solution (cw : Crossword) (s : Var → Word)
    (queue : List (Var × Var)) (doms : Domains)
    (hq : ∀ p ∈ queue, p.1 ∈ cw.vars ∧ p.2 ∈ cw.vars)
    (hsol : ∀ v ∈ cw.vars, ∀ u ∈ cw.vars, ∀ i j, cw.overlaps v u = some (i, j) →
      (s v).getD i ' ' = (s u).getD j ' ')
    (hs : ∀ v ∈ cw.vars, s v ∈ dget doms v) :
    ∀ v ∈ cw.vars, s v ∈ dget (ac3Aux cw queue doms).1 v := by
  induction queue, doms using ac3Aux.induct cw with
  | case1 doms =>
    rw [ac3Aux]
    exact hs
  | case2 doms x y rest h1 h2 =>
    -- a surviving solution witness contradicts the emptied domain
    have hmem := hq (x, y) (List.mem_cons_self _ _)
    have := revise_solution cw s doms x y hmem.1 hmem.2
      (fun i j hov => hsol x hmem.1 y hmem.2 i j hov) hs x hmem.1
    rw [h2] at this
    cases this
  | case3 doms x y rest h1 h2 ih =>
    have hmem := hq (x, y) (List.mem_cons_self _ _)
    have heq : ac3Aux cw ((x, y) :: rest) doms
        = ac3Aux cw
          (rest ++ (((neighbors cw x).filter (fun z => decide (z ≠ y))).map (fun z => (z, x))))
          (revise cw doms x y).1 := by
      rw [ac3Aux, dif_pos h1, if_neg h2]
    rw [heq]
    apply ih
    · intro p hp
      rcases List.mem_append.mp hp with hp | hp
      · exact hq p (List.mem_cons_of_mem _ hp)
      · rcases List.mem_map.mp hp with ⟨z, hz, hzp⟩
        have hzv := ((mem_neighbors cw x z).mp (List.mem_filter.mp hz).1).1
        rw [← hzp]
        exact ⟨hzv, hmem.1⟩
    · exact revise_solution cw s doms x y hmem.1 hmem.2
        (fun i j hov => hsol x hmem.1 y hmem.2 i j hov) hs
  | case4 doms x y rest h1 ih =>
    have heq : ac3Aux cw ((x, y) :: rest) doms = ac3Aux cw rest doms := by
      rw [ac3Aux, dif_neg h1]
    rw [heq]
    exact ih (fun p hp => hq p (List.mem_cons_of_mem _ hp)) hs

/-! ## Length invariant lemmas -/

theorem leninv_enforce (doms : Domains) : LenInv (enforce_node_consistency doms) := by
  intro v w hw
  rw [dget_enforce] at hw
  have := (List.mem_filter.mp hw).2
  simpa using this

theorem leninv_revise (cw : Crossword) (doms : Domains) (x y : Var)
    (h : LenInv doms) : LenInv (revise cw doms x y).1 :=
  fun v w hw => h v w (revise_subset cw doms x y v w hw)

theorem leninv_ac3Aux (cw : Crossword) (q : List (Var × Var)) (doms : Domains)
    (h : LenInv doms) : LenInv (ac3Aux cw q doms).1 :=
  fun v w hw => h v w (ac3Aux_subset cw q doms v w hw)

/-! ## Heuristic lemmas -/

theorem mrvLe_trans (a b c : Var × Nat × Nat) (h1 : mrvLe a b = true)
    (h2 : mrvLe b c = true) : mrvLe a c = true := by
  simp only [mrvLe, decide_eq_true_eq] at h1 h2 ⊢
  omega

theorem mrvLe_total (a b : Var × Nat × Nat) : mrvLe a b || mrvLe b a := by
  simp only [mrvLe, Bool.or_eq_true, decide_eq_true_eq]
  omega

theorem select_isSome (cw : Crossword) (doms : Domains) (a : Assignment)
    (h : ∃ v ∈ dkeys doms, aget a v = none) :
    ∃ u, select_unassigned_variable cw doms a = some u := by
  rcases h with ⟨v, hv, hva⟩
  simp only [select_unassigned_variable]
  have hmem : (v, (dget doms v).length, (neighbors cw v).length) ∈
      ((dkeys doms).filter (fun u => (aget a u).isNone)).map
        (fun u => (u, (dget doms u).length, (neighbors cw u).length)) :=
    List.mem_map.mpr ⟨v, List.mem_filter.mpr ⟨hv, by simp [hva]⟩, rfl⟩
  rcases hs : (((dkeys doms).filter (fun u => (aget a u).isNone)).map
      (fun u => (u, (dget doms u).length, (neighbors cw u).length))).mergeSort mrvLe with
      _ | ⟨hd, tl⟩
  · rw [← List.mem_mergeSort] at hmem
    rw [hs] at hmem
    cases hmem
  · exact ⟨hd.1, rfl⟩

theorem select_spec (cw : Crossword) (doms : Domains) (a : Assignment) (v : Var)
    (h : select_unassigned_variable cw doms a = some v) :
    v ∈ dkeys doms ∧ (aget a v).isNone = true ∧
      ∀ u ∈ dkeys doms, (aget a u).isNone = true →
        (dget doms v).length < (dget doms u).length ∨
        ((dget doms v).length = (dget doms u).length ∧
          (neighbors cw v).length ≤ (neighbors cw u).length) := by
  simp only [select_unassigned_variable] at h
  rcases hs : (((dkeys doms).filter (fun u => (aget a u).isNone)).map
      (fun u => (u, (dget doms u).length, (neighbors cw u).length))).mergeSort mrvLe with
      _ | ⟨hd, tl⟩
  · rw [hs] at h
    cases h
  · rw [hs] at h
    have hdv : hd.1 = v := by simpa using h
    have hhd : hd ∈ ((dkeys doms).filter (fun u => (aget a u).isNone)).map
        (fun u => (u, (dget doms u).length, (neighbors cw u).length)) := by
      have hh : hd ∈ hd :: tl := List.mem_cons_self _ _
      rw [← hs] at hh
      exact List.mem_mergeSort.mp hh
    rcases List.mem_map.mp hhd with ⟨v0, hv0, hv0e⟩
    have hfv0 := List.mem_filter.mp hv0
    have hv0v : v0 = v := by rw [← hdv, ← hv0e]
    subst hv0v
    refine ⟨hfv0.1, hfv0.2, ?_⟩
    intro u hu hua
    have hu2 : (u, (dget doms u).length, (neighbors cw u).length) ∈
        ((dkeys doms).filter (fun w => (aget a w).isNone)).map
        (fun w => (w, (dget doms w).length, (neighbors cw w).length)) :=
      List.mem_map.mpr ⟨u, List.mem_filter.mpr ⟨hu, hua⟩, rfl⟩
    rw [← List.mem_mergeSort] at hu2
    rw [hs] at hu2
    rcases List.mem_cons.mp hu2 with hu3 | hu3
    · rw [← hv0e] at hu3
      have h1 : (dget doms u).length = (dget doms v0).length := by
        have hc := congrArg (fun p => p.2.1) hu3
        simpa using hc
      have h2 : (neighbors cw u).length = (neighbors cw v0).length := by
        have hc := congrArg (fun p => p.2.2) hu3
        simpa using hc
      right
      exact ⟨h1.symm, le_of_eq h2.symm⟩
    · have hsorted := List.sorted_mergeSort mrvLe_trans mrvLe_total
        (((dkeys doms).filter (fun u => (aget a u).isNone)).map
          (fun u => (u, (dget doms u).length, (neighbors cw u).length)))
      rw [hs] at hsorted
      have hle : mrvLe hd (u, (dget doms u).length, (neighbors cw u).length) = true :=
        (List.pairwise_cons.mp hsorted).1 _ hu3
      rw [← hv0e] at hle
      simp only [mrvLe, decide_eq_true_eq] at hle
      rcases hle with hle | hle
      · left
        exact hle
      · right
        exact ⟨hle.1, hle.2⟩

theorem mem_order_domain_values (cw : Crossword) (doms : Domains) (var : Var)
    (a : Assignment) (w : Word) :
    w ∈ order_domain_values cw doms var a ↔ w ∈ dget doms var := by
  unfold order_domain_values
  constructor
  · intro h
    rcases List.mem_map.mp h with ⟨p, hp, hpe⟩
    rw [List.mem_mergeSort] at hp
    rcases List.mem_map.mp hp with ⟨x, hx, hxe⟩
    rw [← hpe, ← hxe]
    exact hx
  · intro h
    apply List.mem_map.mpr
    refine ⟨(w, ((neighbors cw var).filter (fun nb => decide (w ∈ dget doms nb))).length),
      ?_, rfl⟩
    rw [List.mem_mergeSort]
    exact List.mem_map.mpr ⟨w, h, rfl⟩

/-! ## More assignment lemmas -/

theorem aget_some_mem (a : Assignment) (v : Var) (w : Word)
    (h : aget a v = some w) : (v, w) ∈ a := by
  induction a with
  | nil => cases h
  | cons p rest ih =>
    obtain ⟨u, w0⟩ := p
    by_cases hu : u = v
    · subst hu
      have hw : w0 = w := by simpa [aget] using h
      subst hw
      exact List.mem_cons_self _ _
    · simp only [aget, if_neg hu] at h
      exact List.mem_cons_of_mem _ (ih h)

theorem aget_of_nodup_mem (a : Assignment) (v : Var) (w : Word)
    (hn : NodupKeys a) (h : (v, w) ∈ a) : aget a v = some w := by
  induction a with
  | nil => cases h
  | cons p rest ih =>
    obtain ⟨u, w0⟩ := p
    simp only [NodupKeys, akeys, List.map_cons, List.nodup_cons] at hn
    rcases List.mem_cons.mp h with h1 | h1
    · have hu : u = v := (congrArg Prod.fst h1).symm
      have hw : w0 = w := (congrArg Prod.snd h1).symm
      subst hu; subst hw
      simp [aget]
    · by_cases hu : u = v
      · subst hu
        exact absurd (List.mem_map.mpr ⟨(u, w), h1, rfl⟩) hn.1
      · simp only [aget, if_neg hu]
        exact ih (by simpa [NodupKeys, akeys] using hn.2) h1

theorem mem_ainsert (a : Assignment) (v : Var) (w : Word) (p : Var × Word)
    (h : p ∈ ainsert a v w) : p ∈ a ∨ p = (v, w) := by
  induction a with
  | nil => simpa [ainsert] using h
  | cons q rest ih =>
    obtain ⟨u, w0⟩ := q
    by_cases hu : u = v
    · subst hu
      have hh : p ∈ (u, w) :: rest := by simpa [ainsert] using h
      rcases List.mem_cons.mp hh with h1 | h1
      · exact Or.inr h1
      · exact Or.inl (List.mem_cons_of_mem _ h1)
    · simp only [ainsert, if_neg hu] at h
      rcases List.mem_cons.mp h with h1 | h1
      · exact Or.inl (h1 ▸ List.mem_cons_self _ _)
      · rcases ih h1 with h2 | h2
        · exact Or.inl (List.mem_cons_of_mem _ h2)
        · exact Or.inr h2

theorem mem_aerase (a : Assignment) (v : Var) (p : Var × Word)
    (h : p ∈ aerase a v) : p ∈ a := by
  induction a with
  | nil => simpa [aerase] using h
  | cons q rest ih =>
    obtain ⟨u, w0⟩ := q
    by_cases hu : u = v
    · subst hu
      have hh : p ∈ rest := by simpa [aerase] using h
      exact List.mem_cons_of_mem _ hh
    · simp only [aerase, if_neg hu] at h
      rcases List.mem_cons.mp h with h1 | h1
      · exact h1 ▸ List.mem_cons_self _ _
      · exact List.mem_cons_of_mem _ (ih h1)

theorem akeys_ainsert (a : Assignment) (v : Var) (w : Word) (k : Var)
    (h : k ∈ akeys (ainsert a v w)) : k ∈ akeys a ∨ k = v := by
  rcases List.mem_map.mp h with ⟨p, hp, hpe⟩
  rcases mem_ainsert a v w p hp with h1 | h1
  · exact Or.inl (List.mem_map.mpr ⟨p, h1, hpe⟩)
  · subst h1
    exact Or.inr hpe.symm

theorem nodup_ainsert (a : Assignment) (v : Var) (w : Word)
    (hn : NodupKeys a) : NodupKeys (ainsert a v w) := by
  induction a with
  | nil => simp [ainsert, NodupKeys, akeys]
  | cons p rest ih =>
    obtain ⟨u, w0⟩ := p
    simp only [NodupKeys, akeys, List.map_cons, List.nodup_cons] at hn
    by_cases hu : u = v
    · subst hu
      have hgoal : NodupKeys ((u, w) :: rest) := by
        simp only [NodupKeys, akeys, List.map_cons, List.nodup_cons]
        exact ⟨hn.1, hn.2⟩
      simpa [ainsert] using hgoal
    · simp only [ainsert, if_neg hu, NodupKeys, akeys, List.map_cons, List.nodup_cons]
      constructor
      · intro hc
        rcases List.mem_map.mp hc with ⟨p, hp, hpe⟩
        rcases mem_ainsert rest v w p hp with h1 | h1
        · exact hn.1 (List.mem_map.mpr ⟨p, h1, hpe⟩)
        · subst h1
          exact hu (by simpa using hpe.symm)
      · exact ih (by simpa [NodupKeys, akeys] using hn.2)

theorem nodup_aerase (a : Assignment) (v : Var) (hn : NodupKeys a) :
    NodupKeys (aerase a v) := by
  induction a with
  | nil => exact hn
  | cons p rest ih =>
    obtain ⟨u, w0⟩ := p
    simp only [NodupKeys, akeys, List.map_cons, List.nodup_cons] at hn
    by_cases hu : u = v
    · subst hu
      have hgoal : NodupKeys rest := by simpa [NodupKeys, akeys] using hn.2
      simpa [aerase] using hgoal
    · simp only [aerase, if_neg hu, NodupKeys, akeys, List.map_cons, List.nodup_cons]
      constructor
      · intro hc
        rcases List.mem_map.mp hc with ⟨p, hp, hpe⟩
        exact hn.1 (List.mem_map.mpr ⟨p, mem_aerase rest v p hp, hpe⟩)
      · exact ih (by simpa [NodupKeys, akeys] using hn.2)

/-! ## Backtracking step equations -/

theorem backtrackMut_zero (cw : Crossword) (st : Domains × Assignment) :
    backtrackMut cw 0 st = (none, st) := by
  rw [backtrackMut]

theorem backtrackMut_complete (cw : Crossword) (fuel : Nat)
    (st : Domains × Assignment) (h : assignment_complete st.1 st.2 = true) :
    backtrackMut cw (fuel + 1) st = (some st.2, st) := by
  rw [backtrackMut]
  simp [h]

theorem backtrackMut_sel_none (cw : Crossword) (fuel : Nat)
    (st : Domains × Assignment) (h : ¬assignment_complete st.1 st.2 = true)
    (hsel : select_unassigned_variable cw st.1 st.2 = none) :
    backtrackMut cw (fuel + 1) st = (none, st) := by
  rw [backtrackMut]
  simp [h, hsel]

theorem backtrackMut_sel_some (cw : Crossword) (fuel : Nat)
    (st : Domains × Assignment) (var : Var)
    (h : ¬assignment_complete st.1 st.2 = true)
    (hsel : select_unassigned_variable cw st.1 st.2 = some var) :
    backtrackMut cw (fuel + 1) st
      = tryVals cw fuel var (order_domain_values cw st.1 var st.2) st := by
  rw [backtrackMut]
  simp [h, hsel]

theorem tryVals_nil (cw : Crossword) (fuel : Nat) (var : Var)
    (st : Domains × Assignment) : tryVals cw fuel var [] st = (none, st) := by
  rw [tryVals]

theorem tryVals_cons_truthy (cw : Crossword) (fuel : Nat) (var : Var)
    (val : Word) (vals : List Word) (st : Domains × Assignment)
    (hcons : consistent cw (ainsert st.2 var val) = true)
    (htr : truthy (backtrackMut cw fuel (st.1, ainsert st.2 var val)).1 = true) :
    tryVals cw fuel var (val :: vals) st
      = backtrackMut cw fuel (st.1, ainsert st.2 var val) := by
  rw [tryVals]
  simp [hcons, htr]

theorem tryVals_cons_falsy (cw : Crossword) (fuel : Nat) (var : Var)
    (val : Word) (vals : List Word) (st : Domains × Assignment)
    (hcons : consistent cw (ainsert st.2 var val) = true)
    (htr : ¬truthy (backtrackMut cw fuel (st.1, ainsert st.2 var val)).1 = true) :
    tryVals cw fuel var (val :: vals) st
      = tryVals cw fuel var vals
          ((backtrackMut cw fuel (st.1, ainsert st.2 var val)).2.1,
           aerase (backtrackMut cw fuel (st.1, ainsert st.2 var val)).2.2 var) := by
  rw [tryVals]
  simp [hcons, htr]

theorem tryVals_cons_incons (cw : Crossword) (fuel : Nat) (var : Var)
    (val : Word) (vals : List Word) (st : Domains × Assignment)
    (hcons : ¬consistent cw (ainsert st.2 var val) = true) :
    tryVals cw fuel var (val :: vals) st
      = tryVals cw fuel var vals (st.1, aerase (ainsert st.2 var val) var) := by
  rw [tryVals]
  simp [hcons]

theorem ne_nil_of_mem_dkeys (d : Domains) (v : Var) (h : v ∈ dkeys d) : d ≠ [] := by
  intro hc
  subst hc
  cases h

theorem complete_nil_false (d : Domains) (h : d ≠ []) :
    assignment_complete d [] = false := by
  rcases d with _ | ⟨p, tl⟩
  · exact absurd rfl h
  · simp [assignment_complete, aget]

theorem backtrackMut_frame (cw : Crossword) : ∀ (fuel : Nat) (st : Domains × Assignment),
    (backtrackMut cw fuel st).2.1 = st.1 ∧
    ((backtrackMut cw fuel st).1 = none → (backtrackMut cw fuel st).2.2 = st.2) ∧
    (∀ r', (backtrackMut cw fuel st).1 = some r' →
      (backtrackMut cw fuel st).2.2 = r' ∧ assignment_complete st.1 r' = true) := by
  refine backtrackMut.induct cw
    (fun fuel st =>
      (backtrackMut cw fuel st).2.1 = st.1 ∧
      ((backtrackMut cw fuel st).1 = none → (backtrackMut cw fuel st).2.2 = st.2) ∧
      (∀ r', (backtrackMut cw fuel st).1 = some r' →
        (backtrackMut cw fuel st).2.2 = r' ∧ assignment_complete st.1 r' = true))
    (fun fuel var vals st =>
      aget st.2 var = none → st.1 ≠ [] →
      (tryVals cw fuel var vals st).2.1 = st.1 ∧
      ((tryVals cw fuel var vals st).1 = none →
        (tryVals cw fuel var vals st).2.2 = st.2) ∧
      (∀ r', (tryVals cw fuel var vals st).1 = some r' →
        (tryVals cw fuel var vals st).2.2 = r' ∧ assignment_complete st.1 r' = true))
    ?_ ?_ ?_ ?_ ?_ ?_ ?_ ?_
  · intro st
    rw [backtrackMut_zero]
    exact ⟨rfl, fun _ => rfl, fun r' hr => by simp at hr⟩
  · intro fuel st hc
    rw [backtrackMut_complete cw fuel st hc]
    refine ⟨rfl, fun hn => by simp at hn, fun r' hr => ?_⟩
    have : st.2 = r' := by simpa using hr
    subst this
    exact ⟨rfl, hc⟩
  · intro fuel st hnc hsel
    rw [backtrackMut_sel_none cw fuel st hnc hsel]
    exact ⟨rfl, fun _ => rfl, fun r' hr => by simp at hr⟩
  · intro fuel st hnc var hsel ih
    rw [backtrackMut_sel_some cw fuel st var hnc hsel]
    have hspec := select_spec cw st.1 st.2 var hsel
    exact ih (Option.isNone_iff_eq_none.mp hspec.2.1)
      (ne_nil_of_mem_dkeys st.1 var hspec.1)
  · intro fuel var st _ _
    rw [tryVals_nil]
    exact ⟨rfl, fun _ => rfl, fun r' hr => by simp at hr⟩
  · intro fuel var val vals st st1 hcons r htr ih1 hvar hne
    have ihA : (backtrackMut cw fuel (st.1, ainsert st.2 var val)).2.1 = st.1 ∧
        ((backtrackMut cw fuel (st.1, ainsert st.2 var val)).1 = none →
          (backtrackMut cw fuel (st.1, ainsert st.2 var val)).2.2 = ainsert st.2 var val) ∧
        (∀ r', (backtrackMut cw fuel (st.1, ainsert st.2 var val)).1 = some r' →
          (backtrackMut cw fuel (st.1, ainsert st.2 var val)).2.2 = r' ∧
            assignment_complete st.1 r' = true) := ih1
    have hcons2 : consistent cw (ainsert st.2 var val) = true := hcons
    have htr2 : truthy (backtrackMut cw fuel (st.1, ainsert st.2 var val)).1 = true := htr
    rw [tryVals_cons_truthy cw fuel var val vals st hcons2 htr2]
    refine ⟨ihA.1, ?_, ?_⟩
    · intro hn
      rw [hn] at htr2
      simp [truthy] at htr2
    · intro r' hr
      exact ⟨(ihA.2.2 r' hr).1, (ihA.2.2 r' hr).2⟩
  · intro fuel var val vals st st1 hcons r htr ih1 ih1b ih2 hvar hne
    have ihA : (backtrackMut cw fuel (st.1, ainsert st.2 var val)).2.1 = st.1 ∧
        ((backtrackMut cw fuel (st.1, ainsert st.2 var val)).1 = none →
          (backtrackMut cw fuel (st.1, ainsert st.2 var val)).2.2 = ainsert st.2 var val) ∧
        (∀ r', (backtrackMut cw fuel (st.1, ainsert st.2 var val)).1 = some r' →
          (backtrackMut cw fuel (st.1, ainsert st.2 var val)).2.2 = r' ∧
            assignment_complete st.1 r' = true) := ih1
    have hcons2 : consistent cw (ainsert st.2 var val) = true := hcons
    have htr2 : ¬truthy (backtrackMut cw fuel (st.1, ainsert st.2 var val)).1 = true := htr
    have hnone : (backtrackMut cw fuel (st.1, ainsert st.2 var val)).1 = none := by
      rcases hr : (backtrackMut cw fuel (st.1, ainsert st.2 var val)).1 with _ | r'
      · rfl
      · have h3 := ihA.2.2 r' hr
        have hcomp : assignment_complete st.1 r' = true := h3.2
        have hre : r' = [] := by
          rw [hr] at htr2
          simp only [truthy, Bool.not_eq_true] at htr2
          exact List.isEmpty_iff.mp (by simpa using htr2)
        rw [hre] at hcomp
        rw [complete_nil_false st.1 hne] at hcomp
        cases hcomp
    have h1 : (backtrackMut cw fuel (st.1, ainsert st.2 var val)).2.1 = st.1 := ihA.1
    have h2 : aerase (backtrackMut cw fuel (st.1, ainsert st.2 var val)).2.2 var = st.2 := by
      rw [ihA.2.1 hnone, aerase_ainsert st.2 var val hvar]
    have ihB : aget (aerase (backtrackMut cw fuel (st.1, ainsert st.2 var val)).2.2 var)
          var = none →
        (backtrackMut cw fuel (st.1, ainsert st.2 var val)).2.1 ≠ [] →
        (tryVals cw fuel var vals ((backtrackMut cw fuel (st.1, ainsert st.2 var val)).2.1,
          aerase (backtrackMut cw fuel (st.1, ainsert st.2 var val)).2.2 var)).2.1
            = (backtrackMut cw fuel (st.1, ainsert st.2 var val)).2.1 ∧
        ((tryVals cw fuel var vals ((backtrackMut cw fuel (st.1, ainsert st.2 var val)).2.1,
          aerase (backtrackMut cw fuel (st.1, ainsert st.2 var val)).2.2 var)).1 = none →
          (tryVals cw fuel var vals ((backtrackMut cw fuel (st.1, ainsert st.2 var val)).2.1,
            aerase (backtrackMut cw fuel (st.1, ainsert st.2 var val)).2.2 var)).2.2
              = aerase (backtrackMut cw fuel (st.1, ainsert st.2 var val)).2.2 var) ∧
        (∀ r', (tryVals cw fuel var vals
            ((backtrackMut cw fuel (st.1, ainsert st.2 var val)).2.1,
             aerase (backtrackMut cw fuel (st.1, ainsert st.2 var val)).2.2 var)).1
              = some r' →
          (tryVals cw fuel var vals ((backtrackMut cw fuel (st.1, ainsert st.2 var val)).2.1,
            aerase (backtrackMut cw fuel (st.1, ainsert st.2 var val)).2.2 var)).2.2 = r' ∧
          assignment_complete (backtrackMut cw fuel (st.1, ainsert st.2 var val)).2.1 r'
            = true) := ih2
    rw [h1, h2] at ihB
    rw [tryVals_cons_falsy cw fuel var val vals st hcons2 htr2, h1, h2]
    exact ihB hvar hne
  · intro fuel var val vals st st1 hcons ih2 hvar hne
    have hcons2 : ¬consistent cw (ainsert st.2 var val) = true := hcons
    have h2 : aerase (ainsert st.2 var val) var = st.2 :=
      aerase_ainsert st.2 var val hvar
    have ihB : aget (aerase (ainsert st.2 var val) var) var = none → st.1 ≠ [] →
        (tryVals cw fuel var vals (st.1, aerase (ainsert st.2 var val) var)).2.1 = st.1 ∧
        ((tryVals cw fuel var vals (st.1, aerase (ainsert st.2 var val) var)).1 = none →
          (tryVals cw fuel var vals (st.1, aerase (ainsert st.2 var val) var)).2.2
            = aerase (ainsert st.2 var val) var) ∧
        (∀ r', (tryVals cw fuel var vals
            (st.1, aerase (ainsert st.2 var val) var)).1 = some r' →
          (tryVals cw fuel var vals (st.1, aerase (ainsert st.2 var val) var)).2.2 = r' ∧
          assignment_complete st.1 r' = true) := ih2
    rw [h2] at ihB
    rw [tryVals_cons_incons cw fuel var val vals st hcons2, h2]
    exact ihB hvar hne

theorem backtrackMut_falsy_none (cw : Crossword) (fuel : Nat)
    (st : Domains × Assignment) (hne : st.1 ≠ [])
    (htr : ¬truthy (backtrackMut cw fuel st).1 = true) :
    (backtrackMut cw fuel st).1 = none := by
  rcases hr : (backtrackMut cw fuel st).1 with _ | r'
  · rfl
  · have h3 := (backtrackMut_frame cw fuel st).2.2 r' hr
    have hre : r' = [] := by
      rw [hr] at htr
      simp only [truthy, Bool.not_eq_true] at htr
      exact List.isEmpty_iff.mp (by simpa using htr)
    rw [hre, complete_nil_false st.1 hne] at h3
    cases h3.2

theorem backtrackMut_sound (cw : Crossword) : ∀ (fuel : Nat) (st : Domains × Assignment),
    ∀ r', (backtrackMut cw fuel st).1 = some r' → consistent cw st.2 = true →
      consistent cw r' = true := by
  refine backtrackMut.induct cw
    (fun fuel st => ∀ r', (backtrackMut cw fuel st).1 = some r' →
      consistent cw st.2 = true → consistent cw r' = true)
    (fun fuel var vals st => ∀ r', (tryVals cw fuel var vals st).1 = some r' →
      consistent cw r' = true)
    ?_ ?_ ?_ ?_ ?_ ?_ ?_ ?_
  · intro st r' hr
    rw [backtrackMut_zero] at hr
    cases hr
  · intro fuel st hc r' hr hcons
    rw [backtrackMut_complete cw fuel st hc] at hr
    have : st.2 = r' := by simpa using hr
    rwa [← this]
  · intro fuel st hnc hsel r' hr
    rw [backtrackMut_sel_none cw fuel st hnc hsel] at hr
    cases hr
  · intro fuel st hnc var hsel ih r' hr _
    rw [backtrackMut_sel_some cw fuel st var hnc hsel] at hr
    exact ih r' hr
  · intro fuel var st r' hr
    rw [tryVals_nil] at hr
    cases hr
  · intro fuel var val vals st st1 hcons r htr ih1 r' hr
    have hcons2 : consistent cw (ainsert st.2 var val) = true := hcons
    have htr2 : truthy (backtrackMut cw fuel (st.1, ainsert st.2 var val)).1 = true := htr
    rw [tryVals_cons_truthy cw fuel var val vals st hcons2 htr2] at hr
    exact ih1 r' hr hcons2
  · intro fuel var val vals st st1 hcons r htr ih1 ih1b ih2 r' hr
    have hcons2 : consistent cw (ainsert st.2 var val) = true := hcons
    have htr2 : ¬truthy (backtrackMut cw fuel (st.1, ainsert st.2 var val)).1 = true := htr
    rw [tryVals_cons_falsy cw fuel var val vals st hcons2 htr2] at hr
    exact ih2 r' hr
  · intro fuel var val vals st st1 hcons ih2 r' hr
    have hcons2 : ¬consistent cw (ainsert st.2 var val) = true := hcons
    rw [tryVals_cons_incons cw fuel var val vals st hcons2] at hr
    exact ih2 r' hr

theorem backtrackMut_keys (cw : Crossword) : ∀ (fuel : Nat) (st : Domains × Assignment),
    ∀ r', (backtrackMut cw fuel st).1 = some r' → NodupKeys st.2 →
      (∀ k ∈ akeys st.2, k ∈ dkeys st.1) →
      NodupKeys r' ∧ ∀ k ∈ akeys r', k ∈ dkeys st.1 := by
  refine backtrackMut.induct cw
    (fun fuel st => ∀ r', (backtrackMut cw fuel st).1 = some r' → NodupKeys st.2 →
      (∀ k ∈ akeys st.2, k ∈ dkeys st.1) →
      NodupKeys r' ∧ ∀ k ∈ akeys r', k ∈ dkeys st.1)
    (fun fuel var vals st => var ∈ dkeys st.1 → aget st.2 var = none → st.1 ≠ [] →
      ∀ r', (tryVals cw fuel var vals st).1 = some r' → NodupKeys st.2 →
      (∀ k ∈ akeys st.2, k ∈ dkeys st.1) →
      NodupKeys r' ∧ ∀ k ∈ akeys r', k ∈ dkeys st.1)
    ?_ ?_ ?_ ?_ ?_ ?_ ?_ ?_
  · intro st r' hr
    rw [backtrackMut_zero] at hr
    cases hr
  · intro fuel st hc r' hr hn hk
    rw [backtrackMut_complete cw fuel st hc] at hr
    have : st.2 = r' := by simpa using hr
    rw [← this]
    exact ⟨hn, hk⟩
  · intro fuel st hnc hsel r' hr
    rw [backtrackMut_sel_none cw fuel st hnc hsel] at hr
    cases hr
  · intro fuel st hnc var hsel ih r' hr hn hk
    rw [backtrackMut_sel_some cw fuel st var hnc hsel] at hr
    have hspec := select_spec cw st.1 st.2 var hsel
    exact ih hspec.1 (Option.isNone_iff_eq_none.mp hspec.2.1)
      (ne_nil_of_mem_dkeys st.1 var hspec.1) r' hr hn hk
  · intro fuel var st _ _ _ r' hr
    rw [tryVals_nil] at hr
    cases hr
  · intro fuel var val vals st st1 hcons r htr ih1 hvd hvar hne r' hr hn hk
    have hcons2 : consistent cw (ainsert st.2 var val) = true := hcons
    have htr2 : truthy (backtrackMut cw fuel (st.1, ainsert st.2 var val)).1 = true := htr
    rw [tryVals_cons_truthy cw fuel var val vals st hcons2 htr2] at hr
    have ihA : ∀ r', (backtrackMut cw fuel (st.1, ainsert st.2 var val)).1 = some r' →
        NodupKeys (ainsert st.2 var val) →
        (∀ k ∈ akeys (ainsert st.2 var val), k ∈ dkeys st.1) →
        NodupKeys r' ∧ ∀ k ∈ akeys r', k ∈ dkeys st.1 := ih1
    apply ihA r' hr (nodup_ainsert st.2 var val hn)
    intro k hkm
    rcases akeys_ainsert st.2 var val k hkm with h1 | h1
    · exact hk k h1
    · exact h1 ▸ hvd
  · intro fuel var val vals st st1 hcons r htr ih1 ih1b ih2 hvd hvar hne r' hr hn hk
    have hcons2 : consistent cw (ainsert st.2 var val) = true := hcons
    have htr2 : ¬truthy (backtrackMut cw fuel (st.1, ainsert st.2 var val)).1 = true := htr
    have hnone : (backtrackMut cw fuel (st.1, ainsert st.2 var val)).1 = none :=
      backtrackMut_falsy_none cw fuel (st.1, ainsert st.2 var val) hne htr2
    have h1 : (backtrackMut cw fuel (st.1, ainsert st.2 var val)).2.1 = st.1 :=
      (backtrackMut_frame cw fuel (st.1, ainsert st.2 var val)).1
    have h2 : aerase (backtrackMut cw fuel (st.1, ainsert st.2 var val)).2.2 var = st.2 := by
      rw [(backtrackMut_frame cw fuel (st.1, ainsert st.2 var val)).2.1 hnone,
        aerase_ainsert st.2 var val hvar]
    have ihB : var ∈ dkeys (backtrackMut cw fuel (st.1, ainsert st.2 var val)).2.1 →
        aget (aerase (backtrackMut cw fuel (st.1, ainsert st.2 var val)).2.2 var) var
          = none →
        (backtrackMut cw fuel (st.1, ainsert st.2 var val)).2.1 ≠ [] →
        ∀ r', (tryVals cw fuel var vals
            ((backtrackMut cw fuel (st.1, ainsert st.2 var val)).2.1,
             aerase (backtrackMut cw fuel (st.1, ainsert st.2 var val)).2.2 var)).1
              = some r' →
        NodupKeys (aerase (backtrackMut cw fuel (st.1, ainsert st.2 var val)).2.2 var) →
        (∀ k ∈ akeys (aerase (backtrackMut cw fuel (st.1, ainsert st.2 var val)).2.2 var),
          k ∈ dkeys (backtrackMut cw fuel (st.1, ainsert st.2 var val)).2.1) →
        NodupKeys r' ∧ ∀ k ∈ akeys r',
          k ∈ dkeys (backtrackMut cw fuel (st.1, ainsert st.2 var val)).2.1 := ih2
    rw [h1, h2] at ihB
    rw [tryVals_cons_falsy cw fuel var val vals st hcons2 htr2, h1, h2] at hr
    exact ihB hvd hvar hne r' hr hn hk
  · intro fuel var val vals st st1 hcons ih2 hvd hvar hne r' hr hn hk
    have hcons2 : ¬consistent cw (ainsert st.2 var val) = true := hcons
    have h2 : aerase (ainsert st.2 var val) var = st.2 :=
      aerase_ainsert st.2 var val hvar
    have ihB : var ∈ dkeys st.1 →
        aget (aerase (ainsert st.2 var val) var) var = none → st.1 ≠ [] →
        ∀ r', (tryVals cw fuel var vals
            (st.1, aerase (ainsert st.2 var val) var)).1 = some r' →
        NodupKeys (aerase (ainsert st.2 var val) var) →
        (∀ k ∈ akeys (aerase (ainsert st.2 var val) var), k ∈ dkeys st.1) →
        NodupKeys r' ∧ ∀ k ∈ akeys r', k ∈ dkeys st.1 := ih2
    rw [h2] at ihB
    rw [tryVals_cons_incons cw fuel var val vals st hcons2, h2] at hr
    exact ihB hvd hvar hne r' hr hn hk

/-! ## Consistency bridge lemmas -/

theorem consistentAux_imp (cw : Crossword) (a : Assignment) :
    ∀ (entries : List (Var × Word)) (seen : List Word),
    consistentAux cw a entries seen = true →
    (∀ p ∈ entries, p.2.length = p.1.length) ∧
    (∀ p ∈ entries, ∀ y u, y ∈ neighbors cw p.1 → aget a y = some u →
      ∀ i j, cw.overlaps p.1 y = some (i, j) → p.2.getD i ' ' = u.getD j ' ') ∧
    List.Pairwise (fun p q => p.2 ≠ q.2) entries ∧
    (∀ p ∈ entries, p.2 ∉ seen) := by
  intro entries
  induction entries with
  | nil =>
    intro seen _
    exact ⟨by simp, by simp, by simp, by simp⟩
  | cons p rest ih =>
    intro seen h
    obtain ⟨v, w⟩ := p
    rw [consistentAux] at h
    split_ifs at h with h1 h2 h3
    have hlen : w.length = v.length := by
      by_contra hc
      exact h1 hc
    have hany : ∀ y ∈ neighbors cw v,
        (match aget a y, cw.overlaps v y with
         | some u, some (i, j) => decide (w.getD i ' ' ≠ u.getD j ' ')
         | _, _ => false) = false := by
      intro y hy
      cases hm : (match aget a y, cw.overlaps v y with
          | some u, some (i, j) => decide (w.getD i ' ' ≠ u.getD j ' ')
          | _, _ => false) with
      | false => rfl
      | true => exact absurd (List.any_eq_true.mpr ⟨y, hy, hm⟩) h2
    rcases ih (seen ++ [w]) h with ⟨ih1, ih2, ih3, ih4⟩
    refine ⟨?_, ?_, ?_, ?_⟩
    · intro p hp
      rcases List.mem_cons.mp hp with hp1 | hp1
      · rw [hp1]
        exact hlen
      · exact ih1 p hp1
    · intro p hp y u hy hu i j hov
      rcases List.mem_cons.mp hp with hp1 | hp1
      · subst hp1
        have := hany y hy
        rw [hu, hov] at this
        simpa using this
      · exact ih2 p hp1 y u hy hu i j hov
    · apply List.pairwise_cons.mpr
      refine ⟨?_, ih3⟩
      intro q hq
      have := ih4 q hq
      simp only [List.mem_append, List.mem_singleton] at this
      intro hc
      exact this (Or.inr hc.symm)
    · intro p hp
      rcases List.mem_cons.mp hp with hp1 | hp1
      · rw [hp1]
        exact h3
      · intro hc
        exact (ih4 p hp1) (List.mem_append.mpr (Or.inl hc))

theorem consistentAux_of_sol (cw : Crossword) (s : Var → Word) (a : Assignment)
    (hlen : ∀ v ∈ cw.vars, (s v).length = v.length)
    (hagree : ∀ v ∈ cw.vars, ∀ u ∈ cw.vars, ∀ i j, cw.overlaps v u = some (i, j) →
      (s v).getD i ' ' = (s u).getD j ' ')
    (hdist : ∀ v ∈ cw.vars, ∀ u ∈ cw.vars, v ≠ u → s v ≠ s u)
    (ha : ∀ p ∈ a, p.1 ∈ cw.vars ∧ p.2 = s p.1) :
    ∀ (entries : List (Var × Word)) (seen : List Word),
    (∀ p ∈ entries, p.1 ∈ cw.vars ∧ p.2 = s p.1) →
    (entries.map Prod.fst).Nodup →
    (∀ w ∈ seen, ∃ u ∈ cw.vars, w = s u ∧ ∀ p ∈ entries, u ≠ p.1) →
    consistentAux cw a entries seen = true := by
  intro entries
  induction entries with
  | nil =>
    intro seen _ _ _
    rw [consistentAux]
  | cons p rest ih =>
    intro seen hent hnd hseen
    obtain ⟨v, w⟩ := p
    have hv := hent (v, w) (List.mem_cons_self _ _)
    have hvv : v ∈ cw.vars := hv.1
    have hw : w = s v := hv.2
    rw [consistentAux]
    rw [if_neg (by
      rw [hw, hlen v hvv]
      exact fun hc => hc rfl)]
    rw [if_neg (by
      intro hc
      rcases List.any_eq_true.mp hc with ⟨y, hy, hmy⟩
      have hyv := (mem_neighbors cw v y).mp hy
      rcases hag : aget a y with _ | u
      · rw [hag] at hmy
        rcases hov : cw.overlaps v y with _ | ij
        · rw [hov] at hmy
          simp at hmy
        · rw [hov] at hmy
          simp at hmy
      · rcases hov : cw.overlaps v y with _ | ij
        · rw [hag, hov] at hmy
          simp at hmy
        · obtain ⟨i, j⟩ := ij
          rw [hag, hov] at hmy
          have hmem := aget_some_mem a y u hag
          have hu := ha (y, u) hmem
          have hus : u = s y := hu.2
          rw [decide_eq_true_eq] at hmy
          apply hmy
          rw [hw, hus]
          exact hagree v hvv y hyv.1 i j hov)]
    rw [if_neg (by
      intro hc
      rcases hseen w hc with ⟨u, hu, hwu, hune⟩
      have hne : u ≠ v := hune (v, w) (List.mem_cons_self _ _)
      exact hdist u hu v hvv hne (by rw [← hwu, hw]))]
    have hnd2 : v ∉ rest.map Prod.fst ∧ (rest.map Prod.fst).Nodup := by
      rw [List.map_cons, List.nodup_cons] at hnd
      exact hnd
    apply ih
    · intro q hq
      exact hent q (List.mem_cons_of_mem _ hq)
    · exact hnd2.2
    · intro w0 hw0
      rcases List.mem_append.mp hw0 with hw1 | hw1
      · rcases hseen w0 hw1 with ⟨u, hu, hwu, hune⟩
        exact ⟨u, hu, hwu, fun q hq => hune q (List.mem_cons_of_mem _ hq)⟩
      · have hw0v : w0 = w := by simpa using hw1
        refine ⟨v, hvv, by rw [hw0v, hw], ?_⟩
        intro q hq hc
        exact hnd2.1 (List.mem_map.mpr ⟨q, hq, hc.symm⟩)

theorem consistent_of_sol (cw : Crossword) (s : Var → Word) (a : Assignment)
    (hlen : ∀ v ∈ cw.vars, (s v).length = v.length)
    (hagree : ∀ v ∈ cw.vars, ∀ u ∈ cw.vars, ∀ i j, cw.overlaps v u = some (i, j) →
      (s v).getD i ' ' = (s u).getD j ' ')
    (hdist : ∀ v ∈ cw.vars, ∀ u ∈ cw.vars, v ≠ u → s v ≠ s u)
    (ha : ∀ p ∈ a, p.1 ∈ cw.vars ∧ p.2 = s p.1)
    (hnd : NodupKeys a) : consistent cw a = true := by
  apply consistentAux_of_sol cw s a hlen hagree hdist ha a [] ha hnd
  intro w hw
  cases hw

/-! ## Completeness of the search -/

theorem incomplete_exists (d : Domains) (a : Assignment)
    (h : ¬assignment_complete d a = true) : ∃ v ∈ dkeys d, aget a v = none := by
  unfold assignment_complete at h
  rw [List.all_eq_true] at h
  push_neg at h
  rcases h with ⟨p, hp, hps⟩
  refine ⟨p.1, List.mem_map.mpr ⟨p, hp, rfl⟩, ?_⟩
  cases hg : aget a p.1 with
  | none => rfl
  | some w => exact absurd (by rw [hg]; rfl) hps

theorem truthy_some (o : Option Assignment) (h : truthy o = true) :
    ∃ r, o = some r := by
  cases o with
  | none => cases h
  | some r => exact ⟨r, rfl⟩

theorem filter_flip_length (p q : Var → Bool) (l : List Var) (var : Var)
    (hvar : var ∈ l) (hnd : l.Nodup) (hp : p var = true) (hq : q var = false)
    (heq : ∀ v ∈ l, v ≠ var → q v = p v) :
    (l.filter q).length + 1 = (l.filter p).length := by
  induction l with
  | nil => cases hvar
  | cons v tl ih =>
    have hnd2 := List.nodup_cons.mp hnd
    by_cases hv : v = var
    · subst hv
      have hcongr : tl.filter q = tl.filter p := by
        apply List.filter_congr
        intro u hu
        exact heq u (List.mem_cons_of_mem _ hu) (fun hc => hnd2.1 (hc ▸ hu))
      rw [List.filter_cons, List.filter_cons, hp, hq, hcongr]
      simp
    · have hvar2 : var ∈ tl := by
        rcases List.mem_cons.mp hvar with h1 | h1
        · exact absurd h1.symm hv
        · exact h1
      have hqp : q v = p v := heq v (List.mem_cons_self _ _) hv
      rw [List.filter_cons, List.filter_cons, hqp]
      have hih := ih hvar2 hnd2.2 (fun u hu hune => heq u (List.mem_cons_of_mem _ hu) hune)
      cases hpv : p v
      · simpa using hih
      · simp only [if_true]
        simp only [List.length_cons]
        omega

theorem uCount_ainsert (cw : Crossword) (a : Assignment) (var : Var) (w : Word)
    (hnd : cw.vars.Nodup) (hvar : var ∈ cw.vars) (hget : aget a var = none) :
    uCount cw (ainsert a var w) + 1 = uCount cw a := by
  unfold uCount
  apply filter_flip_length
  · exact hvar
  · exact hnd
  · simp [hget]
  · rw [aget_ainsert_self]
    rfl
  · intro v _ hv
    rw [aget_ainsert_ne a var v w hv]

theorem backtrackMut_finds (cw : Crossword) (s : Var → Word)
    (hvnd : cw.vars.Nodup)
    (hlen : ∀ v ∈ cw.vars, (s v).length = v.length)
    (hagree : ∀ v ∈ cw.vars, ∀ u ∈ cw.vars, ∀ i j, cw.overlaps v u = some (i, j) →
      (s v).getD i ' ' = (s u).getD j ' ')
    (hdist : ∀ v ∈ cw.vars, ∀ u ∈ cw.vars, v ≠ u → s v ≠ s u) :
    ∀ (fuel : Nat) (st : Domains × Assignment),
      dkeys st.1 = cw.vars →
      (∀ v ∈ cw.vars, s v ∈ dget st.1 v) →
      (∀ p ∈ st.2, p.1 ∈ cw.vars ∧ p.2 = s p.1) →
      NodupKeys st.2 →
      uCount cw st.2 < fuel →
      ∃ r', (backtrackMut cw fuel st).1 = some r' := by
  refine backtrackMut.induct cw
    (fun fuel st =>
      dkeys st.1 = cw.vars →
      (∀ v ∈ cw.vars, s v ∈ dget st.1 v) →
      (∀ p ∈ st.2, p.1 ∈ cw.vars ∧ p.2 = s p.1) →
      NodupKeys st.2 →
      uCount cw st.2 < fuel →
      ∃ r', (backtrackMut cw fuel st).1 = some r')
    (fun fuel var vals st =>
      dkeys st.1 = cw.vars →
      (∀ v ∈ cw.vars, s v ∈ dget st.1 v) →
      (∀ p ∈ st.2, p.1 ∈ cw.vars ∧ p.2 = s p.1) →
      NodupKeys st.2 →
      aget st.2 var = none →
      var ∈ cw.vars →
      s var ∈ vals →
      uCount cw (ainsert st.2 var (s var)) < fuel →
      ∃ r', (tryVals cw fuel var vals st).1 = some r')
    ?_ ?_ ?_ ?_ ?_ ?_ ?_ ?_
  · intro st _ _ _ _ hfuel
    omega
  · intro fuel st hc _ _ _ _ _
    exact ⟨st.2, by rw [backtrackMut_complete cw fuel st hc]⟩
  · intro fuel st hnc hsel _ _ _ _ _
    rcases select_isSome cw st.1 st.2 (incomplete_exists st.1 st.2 hnc) with ⟨u, hu⟩
    rw [hsel] at hu
    cases hu
  · intro fuel st hnc var hsel ih hkeys hsd hst hnd hfuel
    rw [backtrackMut_sel_some cw fuel st var hnc hsel]
    have hspec := select_spec cw st.1 st.2 var hsel
    have hvv : var ∈ cw.vars := hkeys ▸ hspec.1
    have hvn : aget st.2 var = none := Option.isNone_iff_eq_none.mp hspec.2.1
    have hcnt := uCount_ainsert cw st.2 var (s var) hvnd hvv hvn
    exact ih hkeys hsd hst hnd hvn hvv
      ((mem_order_domain_values cw st.1 var st.2 (s var)).mpr (hsd var hvv))
      (by omega)
  · intro fuel var st _ _ _ _ _ _ hmem _
    cases hmem
  · intro fuel var val vals st st1 hcons r htr _ _ _ _ _ _ _ _ _
    have hcons2 : consistent cw (ainsert st.2 var val) = true := hcons
    have htr2 : truthy (backtrackMut cw fuel (st.1, ainsert st.2 var val)).1 = true := htr
    rw [tryVals_cons_truthy cw fuel var val vals st hcons2 htr2]
    exact truthy_some _ htr2
  · intro fuel var val vals st st1 hcons r htr ih1 ih1b ih2 hkeys hsd hst hnd hvn hvv
      hmem hfuel
    have hcons2 : consistent cw (ainsert st.2 var val) = true := hcons
    have htr2 : ¬truthy (backtrackMut cw fuel (st.1, ainsert st.2 var val)).1 = true := htr
    have hne : st.1 ≠ [] := ne_nil_of_mem_dkeys st.1 var (by rw [hkeys]; exact hvv)
    by_cases hval : val = s var
    · subst hval
      have ihA : dkeys st.1 = cw.vars →
          (∀ v ∈ cw.vars, s v ∈ dget st.1 v) →
          (∀ p ∈ ainsert st.2 var (s var), p.1 ∈ cw.vars ∧ p.2 = s p.1) →
          NodupKeys (ainsert st.2 var (s var)) →
          uCount cw (ainsert st.2 var (s var)) < fuel →
          ∃ r', (backtrackMut cw fuel (st.1, ainsert st.2 var (s var))).1 = some r' := ih1
      rcases ihA hkeys hsd
        (by
          intro p hp
          rcases mem_ainsert st.2 var (s var) p hp with h1 | h1
          · exact hst p h1
          · rw [h1]
            exact ⟨hvv, rfl⟩)
        (nodup_ainsert st.2 var (s var) hnd) hfuel with ⟨r', hr'⟩
      have h3 := (backtrackMut_frame cw fuel (st.1, ainsert st.2 var (s var))).2.2 r' hr'
      have hrne : r' ≠ [] := by
        intro hc
        rw [hc, complete_nil_false st.1 hne] at h3
        cases h3.2
      have : truthy (backtrackMut cw fuel (st.1, ainsert st.2 var (s var))).1 = true := by
        rw [hr']
        simp only [truthy, Bool.not_eq_true]
        simpa using hrne
      exact absurd this htr2
    · have hmem2 : s var ∈ vals := by
        rcases List.mem_cons.mp hmem with h1 | h1
        · exact absurd h1.symm hval
        · exact h1
      have hnone : (backtrackMut cw fuel (st.1, ainsert st.2 var val)).1 = none :=
        backtrackMut_falsy_none cw fuel (st.1, ainsert st.2 var val) hne htr2
      have h1 : (backtrackMut cw fuel (st.1, ainsert st.2 var val)).2.1 = st.1 :=
        (backtrackMut_frame cw fuel (st.1, ainsert st.2 var val)).1
      have h2 : aerase (backtrackMut cw fuel (st.1, ainsert st.2 var val)).2.2 var
          = st.2 := by
        rw [(backtrackMut_frame cw fuel (st.1, ainsert st.2 var val)).2.1 hnone,
          aerase_ainsert st.2 var val hvn]
      have ihB : dkeys (backtrackMut cw fuel (st.1, ainsert st.2 var val)).2.1 = cw.vars →
          (∀ v ∈ cw.vars, s v ∈
            dget (backtrackMut cw fuel (st.1, ainsert st.2 var val)).2.1 v) →
          (∀ p ∈ aerase (backtrackMut cw fuel (st.1, ainsert st.2 var val)).2.2 var,
            p.1 ∈ cw.vars ∧ p.2 = s p.1) →
          NodupKeys (aerase (backtrackMut cw fuel (st.1, ainsert st.2 var val)).2.2 var) →
          aget (aerase (backtrackMut cw fuel (st.1, ainsert st.2 var val)).2.2 var) var
            = none →
          var ∈ cw.vars →
          s var ∈ vals →
          uCount cw (ainsert
            (aerase (backtrackMut cw fuel (st.1, ainsert st.2 var val)).2.2 var)
            var (s var)) < fuel →
          ∃ r', (tryVals cw fuel var vals
            ((backtrackMut cw fuel (st.1, ainsert st.2 var val)).2.1,
             aerase (backtrackMut cw fuel (st.1, ainsert st.2 var val)).2.2 var)).1
              = some r' := ih2
      rw [h1, h2] at ihB
      rw [tryVals_cons_falsy cw fuel var val vals st hcons2 htr2, h1, h2]
      exact ihB hkeys hsd hst hnd hvn hvv hmem2 hfuel
  · intro fuel var val vals st st1 hcons ih2 hkeys hsd hst hnd hvn hvv hmem hfuel
    have hcons2 : ¬consistent cw (ainsert st.2 var val) = true := hcons
    by_cases hval : val = s var
    · subst hval
      have : consistent cw (ainsert st.2 var (s var)) = true := by
        apply consistent_of_sol cw s _ hlen hagree hdist
        · intro p hp
          rcases mem_ainsert st.2 var (s var) p hp with h1 | h1
          · exact hst p h1
          · rw [h1]
            exact ⟨hvv, rfl⟩
        · exact nodup_ainsert st.2 var (s var) hnd
      exact absurd this hcons2
    · have hmem2 : s var ∈ vals := by
        rcases List.mem_cons.mp hmem with h1 | h1
        · exact absurd h1.symm hval
        · exact h1
      have h2 : aerase (ainsert st.2 var val) var = st.2 :=
        aerase_ainsert st.2 var val hvn
      have ihB : dkeys st.1 = cw.vars →
          (∀ v ∈ cw.vars, s v ∈ dget st.1 v) →
          (∀ p ∈ aerase (ainsert st.2 var val) var, p.1 ∈ cw.vars ∧ p.2 = s p.1) →
          NodupKeys (aerase (ainsert st.2 var val) var) →
          aget (aerase (ainsert st.2 var val) var) var = none →
          var ∈ cw.vars →
          s var ∈ vals →
          uCount cw (ainsert (aerase (ainsert st.2 var val) var) var (s var)) < fuel →
          ∃ r', (tryVals cw fuel var vals
            (st.1, aerase (ainsert st.2 var val) var)).1 = some r' := ih2
      rw [h2] at ihB
      rw [tryVals_cons_incons cw fuel var val vals st hcons2, h2]
      exact ihB hkeys hsd hst hnd hvn hvv hmem2 hfuel

/-! ## Failure path of solve -/

theorem order_empty (cw : Crossword) (doms : Domains) (var : Var) (a : Assignment)
    (h : dget doms var = []) : order_domain_values cw doms var a = [] := by
  simp [order_domain_values, h]

theorem backtrack_none_of_empty (cw : Crossword) (doms : Domains) (v : Var)
    (hv : v ∈ dkeys doms) (hget : dget doms v = []) :
    (backtrack cw doms []).1 = none := by
  unfold backtrack searchFuel
  have hne : doms ≠ [] := ne_nil_of_mem_dkeys doms v hv
  have hnc : ¬assignment_complete doms [] = true := by
    rw [complete_nil_false doms hne]
    simp
  rcases select_isSome cw doms [] ⟨v, hv, rfl⟩ with ⟨m, hm⟩
  have hspec := select_spec cw doms [] m hm
  have hmz : dget doms m = [] := by
    rcases hspec.2.2 v hv (by rfl) with h1 | h1
    · rw [hget] at h1
      simp at h1
    · rw [hget] at h1
      exact List.length_eq_zero.mp (by simpa using h1.1)
  have hsel : select_unassigned_variable cw (doms, ([] : Assignment)).1
      (doms, ([] : Assignment)).2 = some m := hm
  rw [backtrackMut_sel_some cw cw.vars.length (doms, []) m hnc hsel]
  rw [show order_domain_values cw (doms, ([] : Assignment)).1 m
      (doms, ([] : Assignment)).2 = [] from order_empty cw doms m [] hmz]
  rw [tryVals_nil]

theorem solve_none_of_ac3_false (cw : Crossword)
    (hflag : (ac3 cw (enforce_node_consistency (initDomains cw))).2 = false) :
    solve cw = none := by
  have hk1 : dkeys (enforce_node_consistency (initDomains cw)) = cw.vars := by
    rw [dkeys_enforce, dkeys_initDomains]
  have hfe := ac3Aux_false_empty cw (allArcs (enforce_node_consistency (initDomains cw)))
    (enforce_node_consistency (initDomains cw))
    (fun p hp => ((mem_allArcs _ p).mp hp).1)
    (fun v hv => by rw [hk1]; exact hv) hflag
  rcases hfe with ⟨v, hv, hve⟩
  have hv2 : v ∈ dkeys (ac3 cw (enforce_node_consistency (initDomains cw))).1 := by
    unfold ac3
    rw [ac3Aux_dkeys]
    exact hv
  exact backtrack_none_of_empty cw (ac3 cw (enforce_node_consistency (initDomains cw))).1
    v hv2 hve

/-! ## Well-formedness of concrete puzzles -/

theorem find?_key_unique (L : List (Var × Var × Nat × Nat))
    (hnd : (L.map (fun e => (e.1, e.2.1))).Nodup)
    (e : Var × Var × Nat × Nat) (he : e ∈ L) :
    L.find? (fun e2 => decide (e2.1 = e.1) && decide (e2.2.1 = e.2.1)) = some e := by
  induction L with
  | nil => cases he
  | cons f rest ih =>
    have hnd2 : (f.1, f.2.1) ∉ rest.map (fun e => (e.1, e.2.1)) ∧
        (rest.map (fun e => (e.1, e.2.1))).Nodup := by
      rw [List.map_cons, List.nodup_cons] at hnd
      exact hnd
    by_cases hf : f.1 = e.1 ∧ f.2.1 = e.2.1
    · rcases List.mem_cons.mp he with h1 | h1
      · subst h1
        rw [List.find?_cons_of_pos]
        simp
      · exfalso
        apply hnd2.1
        apply List.mem_map.mpr
        exact ⟨e, h1, by rw [hf.1, hf.2]⟩
    · have hpred : ¬(decide (f.1 = e.1) && decide (f.2.1 = e.2.1)) = true := by
        simp only [Bool.and_eq_true, decide_eq_true_eq]
        exact hf
      rw [List.find?_cons_of_neg _ (by simpa using hpred)]
      rcases List.mem_cons.mp he with h1 | h1
      · exact absurd ⟨congrArg (fun x => x.1) h1.symm,
          congrArg (fun x => x.2.1) h1.symm⟩ hf
      · exact ih hnd2.2 h1

theorem mkCrossword_wf (vs : List Var) (ws : List Word)
    (L : List (Var × Var × Nat × Nat)) (hok : OvListOK L) (hnd : vs.Nodup) :
    (mkCrossword vs ws L).WF := by
  have hover : ∀ x y i j, (mkCrossword vs ws L).overlaps x y = some (i, j) →
      (x, y, i, j) ∈ L := by
    intro x y i j h
    rcases hf : L.find? (fun e => decide (e.1 = x) && decide (e.2.1 = y)) with _ | e
    · rw [show (mkCrossword vs ws L).overlaps x y
          = (L.find? (fun e => decide (e.1 = x) && decide (e.2.1 = y))).map
            (fun e => e.2.2) from rfl, hf] at h
      cases h
    · rw [show (mkCrossword vs ws L).overlaps x y
          = (L.find? (fun e => decide (e.1 = x) && decide (e.2.1 = y))).map
            (fun e => e.2.2) from rfl, hf] at h
      have hpe := List.find?_some hf
      have hem := List.mem_of_find?_eq_some hf
      simp only [Bool.and_eq_true, decide_eq_true_eq] at hpe
      have hee : e.2.2 = (i, j) := by simpa using h
      have : e = (x, y, i, j) := by
        obtain ⟨e1, e2, e3⟩ := e
        simp only at hpe hee
        rw [hpe.1, hpe.2, hee]
      rw [← this]
      exact hem
  constructor
  · exact hnd
  · intro x y i j h
    have hm := hover x y i j h
    have hsw := (hok.1 (x, y, i, j) hm).2.2.2
    have hfind := find?_key_unique L hok.2 (y, x, j, i) hsw
    show (L.find? (fun e => decide (e.1 = y) && decide (e.2.1 = x))).map
      (fun e => e.2.2) = some (j, i)
    rw [hfind]
    rfl
  · intro x
    rcases hf : (mkCrossword vs ws L).overlaps x x with _ | ij
    · rfl
    · obtain ⟨i, j⟩ := ij
      have hm := hover x x i j hf
      exact absurd rfl (hok.1 (x, x, i, j) hm).1
  · intro x y i j h
    exact (hok.1 (x, y, i, j) (hover x y i j h)).2.1
  · intro x y i j h
    exact (hok.1 (x, y, i, j) (hover x y i j h)).2.2.1

/-! ## Claim theorems -/

/-- C9: for every partial assignment, if `backtrack` returns the failure
result (`None`) then the assignment dict maps exactly the same variables to
the same words as at entry, and `backtrack` never mutates the stored
domains, whether it succeeds or fails. -/
theorem C9_frame (cw : Crossword) (doms : Domains) (a : Assignment) :
    (backtrack cw doms a).2.1 = doms ∧
    ((backtrack cw doms a).1 = none → (backtrack cw doms a).2.2 = a) := by
  have h := backtrackMut_frame cw (searchFuel cw) (doms, a)
  exact ⟨h.1, h.2.1⟩

/-- Witness for C9: a failing search on the scenario-2 puzzle leaves the
domain store and the (empty) entry assignment untouched. -/
theorem C9_witness :
    (backtrack cwFail ((ac3 cwFail (enforce_node_consistency
        (initDomains cwFail))).1) []).2.1
      = (ac3 cwFail (enforce_node_consistency (initDomains cwFail))).1 ∧
    (backtrack cwFail ((ac3 cwFail (enforce_node_consistency
        (initDomains cwFail))).1) []).2.2 = [] :=
  ⟨(C9_frame cwFail ((ac3 cwFail (enforce_node_consistency
      (initDomains cwFail))).1) []).1,
   (C9_frame cwFail ((ac3 cwFail (enforce_node_consistency
      (initDomains cwFail))).1) []).2 (by decide)⟩

/-- C10: when the puzzle has no slot variables, `solve()` returns the empty
assignment as a success outcome, not `None`: the completeness check
succeeds vacuously before any variable selection occurs. -/
theorem C10_empty (cw : Crossword) (h : cw.vars = []) : solve cw = some [] := by
  show (backtrack cw (ac3 cw (enforce_node_consistency (initDomains cw))).1 []).1
    = some []
  have h1 : initDomains cw = [] := by rw [initDomains, h]; rfl
  have h2 : enforce_node_consistency [] = [] := rfl
  have h3 : ac3 cw [] = ([], true) := by
    show ac3Aux cw (allArcs []) [] = ([], true)
    rw [show allArcs [] = [] from rfl, ac3Aux]
  rw [h1, h2, h3]
  show (backtrackMut cw (searchFuel cw) ([], [])).1 = some []
  unfold searchFuel
  rw [h]
  rw [show ([] : List Var).length + 1 = 0 + 1 from rfl]
  rw [backtrackMut_complete cw 0 ([], []) rfl]

/-- Witness for C10: on the concrete empty puzzle, `solve` succeeds with
the empty assignment. -/
theorem C10_witness : solve cwEmpty = some [] := C10_empty cwEmpty rfl

/-- C1, counterexample to the claim as stated: on the scenario-2 puzzle,
arc-consistency propagation empties a domain (`ac3` reports failure), yet
the backtracking search is still invoked — `solve()` ignores `ac3`'s
Boolean result and calls `self.backtrack(dict())` unconditionally.  The
overall result is still the no-solution `None`. -/
theorem C1_counterexample :
    (ac3 cwFail (enforce_node_consistency (initDomains cwFail))).2 = false ∧
    (solveSearchInvoked cwFail).2 = true ∧
    solve cwFail = none := by
  refine ⟨by decide, rfl, by decide⟩

/-- C1 (amended): if arc-consistency propagation empties some variable's
domain, `solve()` returns the no-solution result — but it reaches it by
invoking the backtracking search anyway (the empty-domain variable is
selected first by the minimum-remaining-values rule and offers no
candidate value, so the search fails immediately). -/
theorem C1_amended (cw : Crossword)
    (h : (ac3 cw (enforce_node_consistency (initDomains cw))).2 = false) :
    solve cw = none ∧ (solveSearchInvoked cw).2 = true :=
  ⟨solve_none_of_ac3_false cw h, rfl⟩

/-- Witness for C1: the amended claim applied to the scenario-2 puzzle. -/
theorem C1_witness :
    (ac3 cwFail (enforce_node_consistency (initDomains cwFail))).2 = false ∧
    (solve cwFail = none ∧ (solveSearchInvoked cwFail).2 = true) :=
  ⟨by decide, C1_amended cwFail (by decide)⟩

/-- C2, evaluation at the failing input: with `vX` and `vY` both unassigned
and tied at one remaining candidate each, the source returns `vX`, the
variable with *fewer* neighbors (degree 0 against `vY`'s degree 1) — the
ascending sort on `(domain size, degree)` contradicts the intended
highest-degree tie-break stated in the function's own docstring. -/
theorem C2_code_eval :
    select_unassigned_variable cwDeg domsDeg [] = some vX ∧
    vX ≠ vY ∧
    aget ([] : Assignment) vX = none ∧
    aget ([] : Assignment) vY = none ∧
    vX ∈ dkeys domsDeg ∧ vY ∈ dkeys domsDeg ∧
    (dget domsDeg vX).length = (dget domsDeg vY).length ∧
    (neighbors cwDeg vX).length < (neighbors cwDeg vY).length := by
  refine ⟨by decide, by decide, rfl, rfl, by decide, by decide, by decide, by decide⟩

theorem exA_wf : exA.WF :=
  mkCrossword_wf _ _ _ (by unfold OvListOK; decide) (by decide)

/-- C5: if `ac3` with the default all-arcs worklist returns success, then
afterwards every pair of puzzle variables with a non-null overlap `(i, j)`
is arc consistent: every word remaining in `x`'s domain has at least one
word in `y`'s domain agreeing with it at the overlap positions. -/
theorem C5_post (cw : Crossword) (hwf : cw.WF) (doms : Domains)
    (hkeys : dkeys doms = cw.vars) (hflag : (ac3 cw doms).2 = true) :
    ∀ x ∈ cw.vars, ∀ y ∈ cw.vars, ∀ i j, cw.overlaps x y = some (i, j) →
      ∀ w ∈ dget (ac3 cw doms).1 x, ∃ u ∈ dget (ac3 cw doms).1 y,
        w.getD i ' ' = u.getD j ' ' := by
  intro x hx y hy i j hov w hw
  have hxy : x ≠ y := by
    intro hc
    subst hc
    rw [hwf.irrefl x] at hov
    cases hov
  exact ac3_arcok cw hwf.symm doms hkeys hflag x hx y hy hxy i j hov w hw

/-- Witness for C5: arc consistency holds after a successful `ac3` run on
the scenario-3 puzzle. -/
theorem C5_witness :
    dkeys (enforce_node_consistency (initDomains exA)) = exA.vars ∧
    (ac3 exA (enforce_node_consistency (initDomains exA))).2 = true ∧
    (∀ x ∈ exA.vars, ∀ y ∈ exA.vars, ∀ i j, exA.overlaps x y = some (i, j) →
      ∀ w ∈ dget (ac3 exA (enforce_node_consistency (initDomains exA))).1 x,
        ∃ u ∈ dget (ac3 exA (enforce_node_consistency (initDomains exA))).1 y,
          w.getD i ' ' = u.getD j ' ') :=
  ⟨by decide, by decide, C5_post exA exA_wf _ (by decide) (by decide)⟩

/-- C6: `revise(x, y)` on distinct variables is a no-op returning `False`
when the pair has no overlap; otherwise it keeps a word of `x`'s domain iff
some word of `y`'s domain agrees with it at the overlap positions (removing
exactly the unsupported words), leaves `y`'s domain unchanged, and returns
`True` iff at least one word was removed. -/
theorem C6_revise (cw : Crossword) (doms : Domains) (x y : Var) (hxy : x ≠ y) :
    (cw.overlaps x y = none → revise cw doms x y = (doms, false)) ∧
    ∀ i j, cw.overlaps x y = some (i, j) →
      (∀ w, w ∈ dget (revise cw doms x y).1 x ↔
        w ∈ dget doms x ∧ ∃ u ∈ dget doms y, w.getD i ' ' = u.getD j ' ') ∧
      dget (revise cw doms x y).1 y = dget doms y ∧
      ((revise cw doms x y).2 = true ↔
        ∃ w ∈ dget doms x, w ∉ dget (revise cw doms x y).1 x) := by
  refine ⟨revise_none cw doms x y, ?_⟩
  intro i j hov
  have hkept := revise_fst_x cw doms x y i j hov
  refine ⟨?_, revise_fst_ne cw doms x y y (fun hc => hxy hc.symm), ?_⟩
  · intro w
    rw [hkept, List.mem_filter]
    constructor
    · rintro ⟨h1, h2⟩
      rcases List.any_eq_true.mp h2 with ⟨u, hu, he⟩
      exact ⟨h1, u, hu, by simpa using he⟩
    · rintro ⟨h1, u, hu, he⟩
      exact ⟨h1, List.any_eq_true.mpr ⟨u, hu, by simpa using he⟩⟩
  · rw [revise_flag cw doms x y i j hov]
    constructor
    · intro hflag
      rw [decide_eq_true_eq] at hflag
      by_contra hc
      push_neg at hc
      apply hflag
      apply List.filter_eq_self.mpr
      intro w hw
      have hmem := hc w hw
      rw [hkept] at hmem
      exact (List.mem_filter.mp hmem).2
    · rintro ⟨w, hw, hnotin⟩
      rw [decide_eq_true_eq]
      intro heq
      apply hnotin
      rw [hkept, heq]
      exact hw

/-- Witness for C6: the characterization applied to the scenario-2 arc that
empties `vR`'s domain. -/
theorem C6_witness :
    vR ≠ vN ∧
    ((cwFail.overlaps vR vN = none →
      revise cwFail (enforce_node_consistency (initDomains cwFail)) vR vN
        = (enforce_node_consistency (initDomains cwFail), false)) ∧
    ∀ i j, cwFail.overlaps vR vN = some (i, j) →
      (∀ w, w ∈ dget (revise cwFail (enforce_node_consistency
          (initDomains cwFail)) vR vN).1 vR ↔
        w ∈ dget (enforce_node_consistency (initDomains cwFail)) vR ∧
        ∃ u ∈ dget (enforce_node_consistency (initDomains cwFail)) vN,
          w.getD i ' ' = u.getD j ' ') ∧
      dget (revise cwFail (enforce_node_consistency (initDomains cwFail)) vR vN).1 vN
        = dget (enforce_node_consistency (initDomains cwFail)) vN ∧
      ((revise cwFail (enforce_node_consistency (initDomains cwFail)) vR vN).2 = true ↔
        ∃ w ∈ dget (enforce_node_consistency (initDomains cwFail)) vR,
          w ∉ dget (revise cwFail (enforce_node_consistency
            (initDomains cwFail)) vR vN).1 vR)) :=
  ⟨by decide, C6_revise cwFail (enforce_node_consistency (initDomains cwFail)) vR vN
    (by decide)⟩

/-- C7: after `enforce_node_consistency` every stored word has its
variable's length, and this invariant is preserved by `revise` and by the
`ac3` worklist loop (they only remove words, never add them). -/
theorem C7_invariant (cw : Crossword) (doms doms2 doms3 : Domains) (x y : Var)
    (q : List (Var × Var)) :
    LenInv (enforce_node_consistency doms) ∧
    (LenInv doms2 → LenInv (revise cw doms2 x y).1) ∧
    (LenInv doms3 → LenInv (ac3Aux cw q doms3).1) :=
  ⟨leninv_enforce doms, leninv_revise cw doms2 x y, leninv_ac3Aux cw q doms3⟩

/-- Witness for C7: the invariant holds along the scenario-3 pipeline. -/
theorem C7_witness :
    LenInv (enforce_node_consistency (initDomains exA)) ∧
    LenInv (revise exA (enforce_node_consistency (initDomains exA)) vA vB).1 ∧
    LenInv (ac3 exA (enforce_node_consistency (initDomains exA))).1 := by
  have h := C7_invariant exA (initDomains exA)
    (enforce_node_consistency (initDomains exA))
    (enforce_node_consistency (initDomains exA)) vA vB
    (allArcs (enforce_node_consistency (initDomains exA)))
  exact ⟨h.1, h.2.1 h.1, h.2.2 h.1⟩

/-- C8: running `ac3` with the default worklist a second time on domains
already narrowed by a successful `ac3` pass performs zero removals — the
domains are returned unchanged and the second run reports success. -/
theorem C8_idempotent (cw : Crossword) (hwf : cw.WF) (doms : Domains)
    (hkeys : dkeys doms = cw.vars) (h : (ac3 cw doms).2 = true) :
    ac3 cw (ac3 cw doms).1 = ((ac3 cw doms).1, true) := by
  have harc := ac3_arcok cw hwf.symm doms hkeys h
  have hk2 : dkeys (ac3 cw doms).1 = cw.vars := by
    show dkeys (ac3Aux cw (allArcs doms) doms).1 = cw.vars
    rw [ac3Aux_dkeys]
    exact hkeys
  show ac3Aux cw (allArcs (ac3 cw doms).1) (ac3 cw doms).1 = ((ac3 cw doms).1, true)
  apply ac3Aux_noop
  intro p hp
  have hm := (mem_allArcs _ p).mp hp
  exact harc p.1 (by rw [← hk2]; exact hm.1) p.2 (by rw [← hk2]; exact hm.2.1)
    (fun hc => hm.2.2 hc.symm)

/-- Witness for C8: idempotence of `ac3` on the scenario-3 puzzle. -/
theorem C8_witness :
    dkeys (enforce_node_consistency (initDomains exA)) = exA.vars ∧
    (ac3 exA (enforce_node_consistency (initDomains exA))).2 = true ∧
    ac3 exA (ac3 exA (enforce_node_consistency (initDomains exA))).1
      = ((ac3 exA (enforce_node_consistency (initDomains exA))).1, true) :=
  ⟨by decide, by decide, C8_idempotent exA exA_wf _ (by decide) (by decide)⟩

/-- C3: every assignment returned by `solve()` (any non-`None` result) is
complete — it assigns a word to every slot variable — and consistent:
assigned word lengths match their variables, letters agree at every
overlap of assigned variables, and all assigned words are pairwise
distinct. -/
theorem C3_sound (cw : Crossword) (hwf : cw.WF) (r : Assignment)
    (h : solve cw = some r) :
    CompleteAssignment cw r ∧ LengthOK r ∧ OverlapsOK cw r ∧ DistinctWords r := by
  have hbm : (backtrackMut cw (searchFuel cw)
      ((ac3 cw (enforce_node_consistency (initDomains cw))).1, [])).1 = some r := h
  have hkeys : dkeys (ac3 cw (enforce_node_consistency (initDomains cw))).1
      = cw.vars := by
    show dkeys (ac3Aux cw _ _).1 = cw.vars
    rw [ac3Aux_dkeys, dkeys_enforce, dkeys_initDomains]
  have hframe := (backtrackMut_frame cw (searchFuel cw)
    ((ac3 cw (enforce_node_consistency (initDomains cw))).1, [])).2.2 r hbm
  have hcomp : assignment_complete
      (ac3 cw (enforce_node_consistency (initDomains cw))).1 r = true := hframe.2
  have hcons : consistent cw r = true :=
    backtrackMut_sound cw (searchFuel cw)
      ((ac3 cw (enforce_node_consistency (initDomains cw))).1, []) r hbm rfl
  have hkr := backtrackMut_keys cw (searchFuel cw)
    ((ac3 cw (enforce_node_consistency (initDomains cw))).1, []) r hbm
    (by simp [NodupKeys, akeys]) (by intro k hk; simp [akeys] at hk)
  have hrkeys : ∀ k ∈ akeys r, k ∈ cw.vars := fun k hk => hkeys ▸ hkr.2 k hk
  have hbridge := consistentAux_imp cw r r [] hcons
  refine ⟨?_, hbridge.1, ?_, ?_⟩
  · intro v hv
    rw [← hkeys] at hv
    rcases List.mem_map.mp hv with ⟨p, hp, hpe⟩
    have hsome := List.all_eq_true.mp hcomp p hp
    rcases Option.isSome_iff_exists.mp hsome with ⟨w, hw⟩
    exact ⟨w, by rw [← hpe]; exact hw⟩
  · intro p hp q hq i j hov
    obtain ⟨p1, p2⟩ := p
    obtain ⟨q1, q2⟩ := q
    have hqv : q1 ∈ cw.vars := hrkeys q1 (List.mem_map.mpr ⟨(q1, q2), hq, rfl⟩)
    have hne : q1 ≠ p1 := by
      intro hc
      subst hc
      rw [hwf.irrefl q1] at hov
      cases hov
    have hy : q1 ∈ neighbors cw p1 :=
      (mem_neighbors cw p1 q1).mpr ⟨hqv, hne, by rw [hov]; rfl⟩
    have haq : aget r q1 = some q2 := aget_of_nodup_mem r q1 q2 hkr.1 hq
    exact hbridge.2.1 (p1, p2) hp q1 q2 hy haq i j hov
  · intro p hp q hq hne
    have hpq : p ≠ q := fun hc => hne (hc ▸ rfl)
    exact hbridge.2.2.1.forall (fun x y hxy => Ne.symm hxy) hp hq hpq

/-- Witness for C3: the assignment `solve` returns on the scenario-3 puzzle
is complete and consistent. -/
theorem C3_witness :
    solve exA = some [(vA, ['b','e','e']), (vB, ['e','a','r'])] ∧
    (CompleteAssignment exA [(vA, ['b','e','e']), (vB, ['e','a','r'])] ∧
     LengthOK [(vA, ['b','e','e']), (vB, ['e','a','r'])] ∧
     OverlapsOK exA [(vA, ['b','e','e']), (vB, ['e','a','r'])] ∧
     DistinctWords [(vA, ['b','e','e']), (vB, ['e','a','r'])]) :=
  ⟨by decide, C3_sound exA exA_wf _ (by decide)⟩

/-- C4: if a complete, consistent assignment exists that draws each
variable's word from the original pre-propagation domain (the dictionary),
then `solve()` returns some satisfying assignment rather than `None`. -/
theorem C4_complete (cw : Crossword) (hwf : cw.WF) (s : Var → Word)
    (hs : SolutionOK cw s) : solve cw ≠ none := by
  have hdict : ∀ v ∈ cw.vars, s v ∈ cw.words := fun v hv => (hs v hv).1
  have hlen : ∀ v ∈ cw.vars, (s v).length = v.length := fun v hv => (hs v hv).2.1
  have hagree : ∀ v ∈ cw.vars, ∀ u ∈ cw.vars, ∀ i j, cw.overlaps v u = some (i, j) →
      (s v).getD i ' ' = (s u).getD j ' ' := by
    intro v hv u hu i j hov
    exact ((hs v hv).2.2 u hu).1 (i, j) (by rw [hov]; exact List.mem_singleton.mpr rfl)
  have hdist : ∀ v ∈ cw.vars, ∀ u ∈ cw.vars, v ≠ u → s v ≠ s u :=
    fun v hv u hu => ((hs v hv).2.2 u hu).2
  have hd1 : ∀ v ∈ cw.vars,
      s v ∈ dget (enforce_node_consistency (initDomains cw)) v := by
    intro v hv
    rw [dget_enforce, dget_initDomains cw v hv]
    apply List.mem_filter.mpr
    exact ⟨hdict v hv, by simp [hlen v hv]⟩
  have hk1 : dkeys (enforce_node_consistency (initDomains cw)) = cw.vars := by
    rw [dkeys_enforce, dkeys_initDomains]
  have hd2 : ∀ v ∈ cw.vars,
      s v ∈ dget (ac3 cw (enforce_node_consistency (initDomains cw))).1 v := by
    apply ac3Aux_solution cw s
    · intro p hp
      have hm := (mem_allArcs _ p).mp hp
      exact ⟨hk1 ▸ hm.1, hk1 ▸ hm.2.1⟩
    · exact hagree
    · exact hd1
  have hk2 : dkeys (ac3 cw (enforce_node_consistency (initDomains cw))).1
      = cw.vars := by
    show dkeys (ac3Aux cw _ _).1 = cw.vars
    rw [ac3Aux_dkeys]
    exact hk1
  have hfind := backtrackMut_finds cw s hwf.nodup hlen hagree hdist (searchFuel cw)
    ((ac3 cw (enforce_node_consistency (initDomains cw))).1, []) hk2 hd2
    (by intro p hp; cases hp) (by simp [NodupKeys, akeys])
    (by
      show uCount cw [] < cw.vars.length + 1
      unfold uCount
      have := List.length_filter_le
        (fun v => (aget ([] : Assignment) v).isNone) cw.vars
      omega)
  rcases hfind with ⟨r', hr'⟩
  intro hc
  rw [show solve cw = (backtrackMut cw (searchFuel cw)
    ((ac3 cw (enforce_node_consistency (initDomains cw))).1, [])).1 from rfl,
    hr'] at hc
  cases hc

/-- Witness for C4: the scenario-3 puzzle has a satisfying assignment in
its original domains, and `solve` indeed does not return `None`. -/
theorem C4_witness : SolutionOK exA solA ∧ solve exA ≠ none :=
  ⟨by unfold SolutionOK; decide,
   C4_complete exA exA_wf solA (by unfold SolutionOK; decide)⟩
